import Mathlib

/-!
# Verification of the parity-bitcoin core slice

A shallow embedding, in Lean 4, of the three core subsystems of the
repository — the hammersbald data file (`src/hammersbald/src/datafile.rs`),
the orphan block pool (`src/sync/src/utils/orphan_blocks_pool.rs`) and the
block acceptor (`src/verification/src/accept_block.rs`) — together with
theorems settling the specification claims about them.

Bytes are modelled as natural numbers (every value produced by the
serializers is `< 256`); machine integers are naturals with explicit
`% 2^w` or explicit overflow checks where the source uses `overflowing_add`
and friends; fallible Rust functions become `Except`-valued Lean functions.
-/

set_option maxHeartbeats 1000000
set_option maxRecDepth 100000

namespace Hammersbald

/-- Page size of the paged backing store.  Modelled from the spec: `page.rs`
is not among the exposed sources; the spec fixes a constant page size P. -/
def PAGE_SIZE : Nat := 4096

/-- Payload bytes available per page (PP < P, a page header is reserved).
Modelled from the spec: `page.rs` is not among the exposed sources. -/
def PAGE_PAYLOAD_SIZE : Nat := 4090

/-- Error surface of the hammersbald store.  Modelled from the spec:
`error.rs` is not among the exposed sources; the constructors follow the
spec's enumerated error surface.  `LinksNotUpdatable` stands for the source
panic `"Links should not be updated"`, and `IOError` for a propagated
backing I/O failure (a read or update past the end of the backing). -/
inductive Error where
  | Corrupted (reason : String)
  | ValueTooLong
  | LinksNotUpdatable
  | IOError
deriving DecidableEq

/-- Big-endian 3-byte encoding of a length, as written by the envelope
serializer (`BigEndian::write_u24`). -/
def u24be (n : Nat) : List Nat :=
  [n / 65536 % 256, n / 256 % 256, n % 256]

/-- Big-endian 3-byte decode (`BigEndian::read_u24`). -/
def readU24 (l : List Nat) : Nat :=
  match l with
  | [a, b, c] => a * 65536 + b * 256 + c
  | _ => 0

/-- Read `n` bytes at logical position `p` of the backing.  Modelled from
the spec: the paged backing (`pagedfile.rs`) is not among the exposed
sources; per spec §6 all offsets are byte-exact and the backing skips page
headers, so the backing is modelled as a flat logical byte sequence.  A
read past the end of the stream is the backing's I/O failure. -/
def readAt (bs : List Nat) (p n : Nat) : Option (List Nat) :=
  if p + n ≤ bs.length then some ((bs.drop p).take n) else none

/-- Overwrite the region starting at `p` with `store` (the backing's
`update`).  Modelled from the spec, like `readAt`. -/
def writeAt (bs : List Nat) (p : Nat) (store : List Nat) : List Nat :=
  bs.take p ++ store ++ bs.drop (p + store.length)

/-- A payload stored in the data file, the tagged union of the spec's data
model (`format.rs` is not among the exposed sources): `Indexed` carries a
key and data, `Referred` only data, `Link` an opaque lookup-table entry. -/
inductive Payload where
  | Indexed (key : List Nat) (dat : List Nat)
  | Referred (dat : List Nat)
  | Link (link : List Nat)
deriving DecidableEq

/-- Serialization of a payload.  Modelled from the spec: `format.rs` is not
among the exposed sources; per spec §6 a payload self-describes its variant
via a leading discriminator byte.  The key is stored behind a one-byte
length, data behind a 3-byte big-endian length. -/
def Payload.serialize : Payload → List Nat
  | .Indexed key dat => 0 :: (key.length % 256) :: (key ++ (u24be dat.length ++ dat))
  | .Referred dat => 1 :: (u24be dat.length ++ dat)
  | .Link link => 2 :: (u24be link.length ++ link)

/-- Deserialization of a payload.  Modelled from the spec, inverse of
`Payload.serialize`; malformed bytes yield `Corrupted`. -/
def Payload.deserialize (bytes : List Nat) : Except Error Payload :=
  match bytes with
  | [] => .error (.Corrupted "empty payload")
  | tag :: rest =>
    if tag = 0 then
      match rest with
      | [] => .error (.Corrupted "malformed indexed payload")
      | klen :: body =>
        if klen + 3 ≤ body.length ∧
            readU24 ((body.drop klen).take 3) = (body.drop (klen + 3)).length then
          .ok (.Indexed (body.take klen) (body.drop (klen + 3)))
        else .error (.Corrupted "malformed indexed payload")
    else if tag = 1 then
      if 3 ≤ rest.length ∧ readU24 (rest.take 3) = (rest.drop 3).length then
        .ok (.Referred (rest.drop 3))
      else .error (.Corrupted "malformed referred payload")
    else if tag = 2 then
      if 3 ≤ rest.length ∧ readU24 (rest.take 3) = (rest.drop 3).length then
        .ok (.Link (rest.drop 3))
      else .error (.Corrupted "malformed link payload")
    else .error (.Corrupted "unknown payload discriminator")

/-- An envelope is the framed record around a payload; in memory it is just
the payload bytes, the 3-byte length frame is added by `serialize`. -/
structure Envelope where
  payload : List Nat
deriving DecidableEq

/-- `Envelope::new` wraps payload bytes. -/
def Envelope.new (payload : List Nat) : Envelope := ⟨payload⟩

/-- `Envelope::serialize`: 3-byte big-endian length frame then the payload
bytes (spec §6 wire format). -/
def Envelope.serialize (e : Envelope) : List Nat :=
  u24be e.payload.length ++ e.payload

/-- `Envelope::deseralize` (source spelling): the bytes after the length
frame are the payload. -/
def Envelope.deseralize (bytes : List Nat) : Envelope := ⟨bytes⟩

/-- `Envelope::from_payload`: envelope over the serialized payload. -/
def Envelope.from_payload (p : Payload) : Envelope := ⟨p.serialize⟩

/-- `DataFile`: the paged appender is modelled as the logical byte stream
together with the appender's cursor (spec §6: offsets are byte-exact, the
backing skips page headers). -/
structure DataFile where
  bytes : List Nat
  pos : Nat
deriving DecidableEq

/-- `DataFile::new`: fails with `Corrupted` unless the backing length is a
multiple of the page size; the cursor starts at the backing length, or at 0
for a backing shorter than one page. -/
def DataFile.new (file : List Nat) : Except Error DataFile :=
  let len := file.length
  if len % PAGE_SIZE ≠ 0 then
    .error (.Corrupted "data file does not end at page boundary")
  else if len ≥ PAGE_SIZE then
    .ok { bytes := file, pos := len }
  else
    .ok { bytes := file, pos := 0 }

/-- `DataFile::get_envelope` on raw bytes: read the 3-byte length at `pref`,
then read that many payload bytes at the advanced position.  The source
reads short payloads (`blen < PAGE_PAYLOAD_SIZE`) through a page-sized
scratch buffer and keeps the first `blen` bytes; both branches perform the
same logical read. -/
def getEnvelopeAt (bs : List Nat) (pref : Nat) : Except Error Envelope :=
  match readAt bs pref 3 with
  | none => .error .IOError
  | some len3 =>
    let blen := readU24 len3
    if blen ≥ PAGE_PAYLOAD_SIZE then
      match readAt bs (pref + 3) blen with
      | none => .error .IOError
      | some buf => .ok (Envelope.deseralize buf)
    else
      match readAt bs (pref + 3) blen with
      | none => .error .IOError
      | some buf => .ok (Envelope.deseralize buf)

/-- `DataFile::get_envelope`. -/
def DataFile.get_envelope (df : DataFile) (pref : Nat) : Except Error Envelope :=
  getEnvelopeAt df.bytes pref

/-- Common tail of the three append methods: serialize the envelope, record
the pre-append cursor, append the bytes, return the recorded position. -/
def DataFile.appendEnvelope (df : DataFile) (e : Envelope) : Nat × DataFile :=
  let store := e.serialize
  (df.pos, { bytes := df.bytes ++ store, pos := df.pos + store.length })

/-- `DataFile::append_link`. -/
def DataFile.append_link (df : DataFile) (link : List Nat) : Nat × DataFile :=
  df.appendEnvelope (Envelope.new (Payload.Link link).serialize)

/-- `DataFile::append_data` (indexed data under a key). -/
def DataFile.append_data (df : DataFile) (key dat : List Nat) : Nat × DataFile :=
  df.appendEnvelope (Envelope.new (Payload.Indexed key dat).serialize)

/-- `DataFile::append_referred`. -/
def DataFile.append_referred (df : DataFile) (dat : List Nat) : Nat × DataFile :=
  df.appendEnvelope (Envelope.new (Payload.Referred dat).serialize)

/-- `DataFile::set_data`: read the envelope at `pref`, substitute the data
field of its payload (links are not updatable: the source panics there),
and overwrite in place unless the re-serialized payload length differs, in
which case the error is `ValueTooLong`.  The post-state is returned in both
outcomes; every error path leaves the bytes unchanged, matching the source
where the only mutation is the final `update`. -/
def DataFile.set_data (df : DataFile) (pref : Nat) (dat : List Nat) :
    Except Error Nat × DataFile :=
  match df.get_envelope pref with
  | .error e => (.error e, df)
  | .ok envelope =>
    match Payload.deserialize envelope.payload with
    | .error e => (.error e, df)
    | .ok (.Link _) => (.error .LinksNotUpdatable, df)
    | .ok pl =>
      let new_payload : Payload :=
        match pl with
        | .Indexed key _ => .Indexed key dat
        | .Referred _ => .Referred dat
        | .Link l => .Link l
      let new_envelope := Envelope.from_payload new_payload
      if envelope.payload.length ≠ new_envelope.payload.length then
        (.error .ValueTooLong, df)
      else
        (.ok pref, { df with bytes := writeAt df.bytes pref new_envelope.serialize })

/-- Forward iteration over envelopes (`EnvelopeIterator::next` unrolled to
the list it yields): starting at position 0, read a 3-byte length; stop on
a failed read or a zero length, else yield `(start, envelope)` and continue
after the payload.  The fuel argument only bounds the recursion; positions
advance by at least 4 bytes per step, so `bs.length + 1` fuel is always
enough. -/
def envelopesFrom (bs : List Nat) : Nat → Nat → List (Nat × Envelope)
  | 0, _ => []
  | fuel + 1, pos =>
    match readAt bs pos 3 with
    | none => []
    | some len3 =>
      let length := readU24 len3
      if length > 0 then
        match readAt bs (pos + 3) length with
        | none => []
        | some buf =>
          (pos, Envelope.deseralize buf) :: envelopesFrom bs fuel (pos + 3 + length)
      else []

/-- `DataFile::envelopes`: the list of `(PageRef, Envelope)` pairs the
iterator yields. -/
def DataFile.envelopes (df : DataFile) : List (Nat × Envelope) :=
  envelopesFrom df.bytes (df.bytes.length + 1) 0

/-- The payload substitution performed by `set_data` (the data field is
replaced, the key of an indexed payload is kept). -/
def setDataSubst (pl : Payload) (dat : List Nat) : Payload :=
  match pl with
  | .Indexed key _ => .Indexed key dat
  | .Referred _ => .Referred dat
  | .Link l => .Link l

/-- One append operation on the data file: which of the three append
methods is called, with its arguments. -/
inductive AppendOp where
  | link (l : List Nat)
  | indexed (key dat : List Nat)
  | referred (dat : List Nat)
deriving DecidableEq

/-- The payload bytes an append operation stores. -/
def AppendOp.payloadBytes : AppendOp → List Nat
  | .link l => (Payload.Link l).serialize
  | .indexed key dat => (Payload.Indexed key dat).serialize
  | .referred dat => (Payload.Referred dat).serialize

/-- The envelope an append operation appends. -/
def AppendOp.envelope (op : AppendOp) : Envelope :=
  Envelope.new op.payloadBytes

/-- The bytes an append operation adds to the logical stream. -/
def AppendOp.encode (op : AppendOp) : List Nat :=
  op.envelope.serialize

/-- Dispatch one append operation to the corresponding method. -/
def DataFile.applyAppend (df : DataFile) (op : AppendOp) : Nat × DataFile :=
  match op with
  | .link l => df.append_link l
  | .indexed key dat => df.append_data key dat
  | .referred dat => df.append_referred dat

/-- Run a sequence of appends, collecting the returned page refs. -/
def runAppends (df : DataFile) : List AppendOp → List Nat × DataFile
  | [] => ([], df)
  | op :: ops =>
    let head := df.applyAppend op
    let rest := runAppends head.2 ops
    (head.1 :: rest.1, rest.2)

/-- The page refs a run of appends returns when the cursor starts at
`start`: each one is the pre-append cursor. -/
def refsFrom (start : Nat) : List AppendOp → List Nat
  | [] => []
  | op :: ops => start :: refsFrom (start + op.encode.length) ops

/-- The byte stream a run of appends produces. -/
def encodeOps (ops : List AppendOp) : List Nat :=
  (ops.map AppendOp.encode).flatten

end Hammersbald

namespace OrphanPool

/-- What the orphan pool reads of an `IndexedBlock`: its own hash
(`header.hash`) and its parent's hash (`header.raw.previous_header_hash`).
Hashes (`SHA256D`) are modelled as naturals. -/
structure Block where
  hash : Nat
  prev : Nat
deriving DecidableEq

/-- Association-list lookup; models `HashMap::get` / `LinkedHashMap::get`
(hash maps are modelled as association lists to make iteration order
deterministic). -/
def alookup {α : Type} : List (Nat × α) → Nat → Option α
  | [], _ => none
  | (k, v) :: rest, key => if k = key then some v else alookup rest key

/-- Association-list removal of a key; models `HashMap::remove` /
`LinkedHashMap::remove` (the entry with the key, if present, is
dropped). -/
def aerase {α : Type} : List (Nat × α) → Nat → List (Nat × α)
  | [], _ => []
  | (k, v) :: rest, key =>
    if k = key then rest else (k, v) :: aerase rest key

/-- Association-list insert-or-replace; models `HashMap::insert` and
`LinkedHashMap::insert` (an existing key keeps its position, a new key is
appended in insertion order). -/
def ainsert {α : Type} : List (Nat × α) → Nat → α → List (Nat × α)
  | [], key, v => [(key, v)]
  | (k, w) :: rest, key, v =>
    if k = key then (k, v) :: rest else (k, w) :: ainsert rest key v

/-- The orphan pool state: `orphaned_blocks` maps a parent hash to the
bucket of its pending children (child hash → block), `unknown_blocks` is
the insertion-ordered map from unrequested block hashes to their arrival
time (`f64` seconds, modelled as an opaque natural). -/
structure OrphanBlocksPool where
  orphaned_blocks : List (Nat × List (Nat × Block))
  unknown_blocks : List (Nat × Nat)
deriving DecidableEq

/-- `OrphanBlocksPool::new`. -/
def OrphanBlocksPool.new : OrphanBlocksPool := ⟨[], []⟩

/-- `OrphanBlocksPool::len`: the number of parent buckets. -/
def OrphanBlocksPool.len (pool : OrphanBlocksPool) : Nat :=
  pool.orphaned_blocks.length

/-- `OrphanBlocksPool::contains_unknown_block`. -/
def OrphanBlocksPool.contains_unknown_block (pool : OrphanBlocksPool) (hash : Nat) : Bool :=
  (alookup pool.unknown_blocks hash).isSome

/-- `OrphanBlocksPool::insert_orphaned_block`: file the block in its
parent's bucket, creating the bucket when absent. -/
def OrphanBlocksPool.insert_orphaned_block (pool : OrphanBlocksPool) (b : Block) :
    OrphanBlocksPool :=
  let bucket := (alookup pool.orphaned_blocks b.prev).getD []
  { pool with
    orphaned_blocks := ainsert pool.orphaned_blocks b.prev (ainsert bucket b.hash b) }

/-- `OrphanBlocksPool::insert_unknown_block`: record the arrival time under
the block's hash (the source asserts the hash is fresh), then insert as an
orphan. -/
def OrphanBlocksPool.insert_unknown_block (pool : OrphanBlocksPool) (b : Block)
    (now : Nat) : OrphanBlocksPool :=
  ({ pool with unknown_blocks := ainsert pool.unknown_blocks b.hash now
   } : OrphanBlocksPool).insert_orphaned_block b

/-- Total number of blocks held across all buckets (used as part of the
termination measure of the BFS loop). -/
def totalBlocks (orphaned : List (Nat × List (Nat × Block))) : Nat :=
  (orphaned.map (fun kv => kv.2.length)).sum

/-- The `while let Some(parent_hash) = queue.pop_front()` loop of
`remove_blocks_for_parent`: dequeue a hash; if it owns a bucket, remove the
bucket, drop each child from `unknown_blocks`, enqueue the children's
hashes and append the child blocks to the result. -/
def removeForParentLoop (queue : List Nat) (pool : OrphanBlocksPool)
    (removed : List Block) : List Block × OrphanBlocksPool :=
  match queue with
  | [] => (removed, pool)
  | parent_hash :: rest =>
    match h : alookup pool.orphaned_blocks parent_hash with
    | none => removeForParentLoop rest pool removed
    | some orphaned =>
      let pool' : OrphanBlocksPool :=
        { orphaned_blocks := aerase pool.orphaned_blocks parent_hash,
          unknown_blocks :=
            orphaned.foldl (fun u kv => aerase u kv.1) pool.unknown_blocks }
      removeForParentLoop (rest ++ orphaned.map Prod.fst) pool'
        (removed ++ orphaned.map Prod.snd)
termination_by queue.length + totalBlocks pool.orphaned_blocks + pool.orphaned_blocks.length
decreasing_by
  · simp only [List.length_cons]; omega
  · simp only [List.length_append, List.length_cons, List.length_map]
    have h1 : ∀ (l : List (Nat × List (Nat × Block))) (k : Nat),
        totalBlocks (aerase l k) ≤ totalBlocks l ∧
          (aerase l k).length ≤ l.length := by
      intro l k
      induction l with
      | nil => simp [aerase]
      | cons kv tail ih =>
        rw [aerase]
        by_cases hk : kv.1 = k
        · rw [if_pos hk]
          simp only [totalBlocks, List.map_cons, List.sum_cons,
            List.length_cons] at ih ⊢
          omega
        · rw [if_neg hk]
          simp only [totalBlocks, List.map_cons, List.sum_cons,
            List.length_cons] at ih ⊢
          omega
    have h2 : ∀ (l : List (Nat × List (Nat × Block))) (k : Nat)
        (v : List (Nat × Block)), alookup l k = some v →
        v.length + totalBlocks (aerase l k) ≤ totalBlocks l ∧
          (aerase l k).length < l.length := by
      intro l k
      induction l with
      | nil => intro v hv; simp [alookup] at hv
      | cons kv tail ih =>
        intro v hv
        rw [alookup] at hv
        rw [aerase]
        by_cases hk : kv.1 = k
        · rw [if_pos hk] at hv
          rw [if_pos hk]
          obtain rfl : kv.2 = v := Option.some.inj hv
          have := h1 tail k
          simp only [totalBlocks, List.map_cons, List.sum_cons,
            List.length_cons] at this ⊢
          omega
        · rw [if_neg hk] at hv
          rw [if_neg hk]
          have := ih v hv
          simp only [totalBlocks, List.map_cons, List.sum_cons,
            List.length_cons] at this ⊢
          omega
    have hkey := h2 _ _ _ (by assumption)
    omega

/-- `OrphanBlocksPool::remove_blocks_for_parent`: breadth-first removal of
every block depending on the given parent hash. -/
def OrphanBlocksPool.remove_blocks_for_parent (pool : OrphanBlocksPool)
    (hash : Nat) : List Block × OrphanBlocksPool :=
  removeForParentLoop [hash] pool []

/-- The inner `for hash in hashes` loop of `remove_blocks`'s `retain`
closure: drop each listed hash from the bucket, recording the hashes
actually removed. -/
def removeHashesFromBucket (bucket : List (Nat × Block)) :
    List Nat → List Nat → List (Nat × Block) × List Nat
  | [], removed => (bucket, removed)
  | h :: rest, removed =>
    if (alookup bucket h).isSome then
      removeHashesFromBucket (aerase bucket h) rest (removed ++ [h])
    else
      removeHashesFromBucket bucket rest removed

/-- The `retain` pass of `remove_blocks`: process every bucket with
`removeHashesFromBucket` and keep only the non-empty results, collecting
the removed hashes across buckets. -/
def retainBuckets (hashes : List Nat) :
    List (Nat × List (Nat × Block)) →
      List (Nat × List (Nat × Block)) × List Nat
  | [] => ([], [])
  | (k, bucket) :: rest =>
    let br := removeHashesFromBucket bucket hashes []
    let tail := retainBuckets hashes rest
    (if br.1 = [] then tail.1 else (k, br.1) :: tail.1, br.2 ++ tail.2)

/-- The cascade pass of `remove_blocks`: for each input hash, remove all
dependent blocks via `remove_blocks_for_parent` and append their hashes. -/
def cascadeRemove : List Nat → OrphanBlocksPool → List Nat →
    List Nat × OrphanBlocksPool
  | [], pool, removed => (removed, pool)
  | h :: rest, pool, removed =>
    let r := pool.remove_blocks_for_parent h
    cascadeRemove rest r.2 (removed ++ r.1.map Block.hash)

/-- `OrphanBlocksPool::remove_blocks`: remove the given hashes from every
bucket, prune empty buckets, drop the removed hashes from
`unknown_blocks`, then cascade-remove all their dependents. -/
def OrphanBlocksPool.remove_blocks (pool : OrphanBlocksPool)
    (hashes : List Nat) : List Nat × OrphanBlocksPool :=
  let rb := retainBuckets hashes pool.orphaned_blocks
  let unknown' := rb.2.foldl (fun u h => aerase u h) pool.unknown_blocks
  cascadeRemove hashes ⟨rb.1, unknown'⟩ rb.2

/-- All child hashes stored across a list of parent buckets. -/
def childKeysList (orphaned : List (Nat × List (Nat × Block))) : List Nat :=
  (orphaned.map (fun kv => kv.2.map Prod.fst)).flatten

/-- All child hashes stored across the pool's buckets. -/
def childKeys (pool : OrphanBlocksPool) : List Nat :=
  childKeysList pool.orphaned_blocks

/-- Breadth-first order relative to a root hash: every block's parent hash
is the root or the hash of an earlier block in the list. -/
def BFSOrder (root : Nat) (blocks : List Block) : Prop :=
  ∀ i b, blocks[i]? = some b →
    b.prev = root ∨ b.prev ∈ (blocks.take i).map Block.hash

/-- `OrphanBlocksPool::remove_known_blocks`: remove every orphan whose hash
is not in `unknown_blocks` (the source collects them into a `HashSet`,
modelled by deduplication, then delegates to `remove_blocks`). -/
def OrphanBlocksPool.remove_known_blocks (pool : OrphanBlocksPool) :
    List Nat × OrphanBlocksPool :=
  let orphans_to_remove :=
    ((childKeys pool).filter
      (fun h => ¬ (alookup pool.unknown_blocks h).isSome)).dedup
  pool.remove_blocks orphans_to_remove

/-- One pool operation, for stating state-machine invariants. -/
inductive Op where
  | insertOrphaned (b : Block)
  | insertUnknown (b : Block) (now : Nat)
  | removeKnown
  | removeForParent (h : Nat)
  | removeBlocks (hashes : List Nat)

/-- Apply one pool operation (return values discarded). -/
def applyOp (pool : OrphanBlocksPool) : Op → OrphanBlocksPool
  | .insertOrphaned b => pool.insert_orphaned_block b
  | .insertUnknown b now => pool.insert_unknown_block b now
  | .removeKnown => pool.remove_known_blocks.2
  | .removeForParent h => (pool.remove_blocks_for_parent h).2
  | .removeBlocks hashes => (pool.remove_blocks hashes).2

/-- The spec's pool invariant: every hash recorded in `unknown_blocks`
is stored as a child key in some bucket, and no bucket is empty. -/
def PoolInvariant (pool : OrphanBlocksPool) : Prop :=
  (∀ kv ∈ pool.unknown_blocks, kv.1 ∈ childKeys pool) ∧
  (∀ kv ∈ pool.orphaned_blocks, kv.2 ≠ ([] : List (Nat × Block)))

/-- Well-keyed pool (the spec's data-model reading of the two maps): every
block sits in the bucket of its parent hash, under its own hash
(maintained by `insert_orphaned_block`), no block hash occurs twice across
the pool, and `unknown_blocks` is a map (no duplicate keys). -/
def WellKeyed (pool : OrphanBlocksPool) : Prop :=
  (∀ kv ∈ pool.orphaned_blocks, ∀ e ∈ kv.2,
      e.2.prev = kv.1 ∧ e.2.hash = e.1) ∧
  (childKeys pool).Nodup ∧
  (pool.unknown_blocks.map Prod.fst).Nodup

end OrphanPool

namespace Consensus

/-- A reference to a previous transaction output. -/
structure OutPoint where
  hash : Nat
  index : Nat
deriving DecidableEq

/-- A transaction input; scripts and witness stack items are byte lists. -/
structure TransactionInput where
  previous_output : OutPoint
  script_sig : List Nat
  sequence : Nat
  script_witness : List (List Nat)
deriving DecidableEq

/-- A transaction output: a value in satoshis (u64) and a script. -/
structure TransactionOutput where
  value : Nat
  script_pubkey : List Nat
deriving DecidableEq

/-- A transaction as the acceptor reads it. -/
structure Transaction where
  inputs : List TransactionInput
  outputs : List TransactionOutput
  lock_time : Nat
deriving DecidableEq

/-- A transaction together with its precomputed hash (`IndexedTransaction`);
hashes are modelled as naturals. -/
structure IndexedTransaction where
  hash : Nat
  raw : Transaction
deriving DecidableEq

/-- The header fields the acceptor reads. -/
structure BlockHeader where
  previous_header_hash : Nat
  time : Nat
deriving DecidableEq

/-- A header with its precomputed hash (`IndexedBlockHeader`). -/
structure IndexedBlockHeader where
  hash : Nat
  raw : BlockHeader
deriving DecidableEq

/-- A candidate block under canonical evaluation (`CanonBlock`).
Serialization and merkle hashing are outside the exposed sources and the
spec's scope (spec §1 treats wire formats and cryptography as external),
so the base serialized size, the size with witness data and the witness
merkle root are carried as attributes of the block.  Modelled from the
spec. -/
structure CanonBlock where
  header : IndexedBlockHeader
  transactions : List IndexedTransaction
  size : Nat
  size_with_witness : Nat
  witness_merkle_root : List Nat
deriving DecidableEq

/-- Consensus constants (spec §3 data model). -/
structure ConsensusParams where
  max_block_size : Nat
  max_block_weight : Nat
  witness_scale_factor : Nat
  max_block_sigops : Nat
  max_block_sigops_cost : Nat
  bip16_time : Nat
  bip34_height : Nat
deriving DecidableEq

/-- Soft-fork activation snapshot (`BlockDeployments`). -/
structure Deployments where
  csv : Bool
  segwit : Bool
deriving DecidableEq

/-- The transaction error surface reached by the acceptor. -/
inductive TransactionError where
  | Overspend
deriving DecidableEq

/-- The acceptor's error surface (spec §6). -/
inductive Error where
  | NonFinalBlock
  | Size (size : Nat)
  | Weight
  | MaximumSigops
  | MaximumSigopsCost
  | ReferencedInputsSumOverflow
  | Transaction (index : Nat) (err : TransactionError)
  | TransactionFeesOverflow
  | TransactionFeeAndRewardOverflow
  | CoinbaseOverspend (expected_max : Nat) (actual : Nat)
  | CoinbaseScript
  | WitnessInvalidNonceSize
  | WitnessMerkleCommitmentMismatch
  | UnexpectedWitness
deriving DecidableEq

/-- Modelled from the spec: a null outpoint marks a coinbase input (the
`chain` crate is not among the exposed sources). -/
def OutPoint.is_null (o : OutPoint) : Bool :=
  o.hash = 0 ∧ o.index = 4294967295

/-- Modelled from the spec: `Transaction::is_coinbase` — a single input
spending the null outpoint. -/
def Transaction.is_coinbase (tx : Transaction) : Bool :=
  tx.inputs.length = 1 ∧
    ((tx.inputs.head?.map (fun i => i.previous_output.is_null)).getD false)

/-- Modelled from the spec: `Transaction::total_spends` — the sum of the
output values. -/
def Transaction.total_spends (tx : Transaction) : Nat :=
  (tx.outputs.map TransactionOutput.value).sum

/-- Modelled from the spec: `Transaction::is_final_in_block` — final if the
lock time is zero, or strictly below the cutoff (the block height for lock
times under the 500000000 threshold, the time cutoff otherwise), or if
every input carries the maximal sequence number. -/
def Transaction.is_final_in_block (tx : Transaction) (height time : Nat) : Bool :=
  if tx.lock_time = 0 then true
  else
    let cutoff := if tx.lock_time < 500000000 then height else time
    if tx.lock_time < cutoff then true
    else tx.inputs.all (fun i => i.sequence = 4294967295)

/-- Modelled from the spec: `Transaction::has_witness` — some input carries
a non-empty witness stack. -/
def Transaction.has_witness (tx : Transaction) : Bool :=
  tx.inputs.any (fun i => ¬ i.script_witness.isEmpty)

/-- Modelled from the spec: the in-block half of the duplex output
provider — resolve an outpoint against the transactions preceding the
spender in the same block. -/
def CanonBlock.transaction_output (block : CanonBlock) (prevout : OutPoint)
    (transaction_index : Nat) : Option TransactionOutput :=
  ((block.transactions.take transaction_index).find?
      (fun tx => tx.hash = prevout.hash)).bind
    (fun tx => tx.raw.outputs[prevout.index]?)

/-- Modelled from the spec §6: the duplex output provider first queries the
in-block outputs, then the external store. -/
def duplexOutput (store : OutPoint → Nat → Option TransactionOutput)
    (block : CanonBlock) (prevout : OutPoint) (transaction_index : Nat) :
    Option TransactionOutput :=
  (block.transaction_output prevout transaction_index).orElse
    (fun _ => store prevout transaction_index)

/-- Modelled from the spec: the timestamps of up to `fuel` ancestors of a
block, walked through the header provider (`timestamp.rs` is not among the
exposed sources). -/
def ancestorTimes (headers : Nat → Option BlockHeader) : Nat → Nat → List Nat
  | 0, _ => []
  | fuel + 1, hash =>
    match headers hash with
    | none => []
    | some h => h.time :: ancestorTimes headers fuel h.previous_header_hash

/-- Modelled from the spec: `median_timestamp` — the median of the sorted
timestamps of up to 11 ancestors (0 when there are none). -/
def median_timestamp (headers : Nat → Option BlockHeader)
    (header : BlockHeader) : Nat :=
  let timestamps :=
    (ancestorTimes headers 11 header.previous_header_hash).mergeSort (· ≤ ·)
  timestamps.getD (timestamps.length / 2) 0

/-- Modelled from the spec: signature-operation count of a script
(`script`'s `sigops_count` is not among the exposed sources).  Pushed data
is skipped; CHECKSIG and CHECKSIGVERIFY count 1, CHECKMULTISIG and
CHECKMULTISIGVERIFY count 20.  The fuel argument only bounds the
recursion; every step consumes at least one byte, so the script length is
always enough. -/
def sigopsCountAux : Nat → List Nat → Nat
  | 0, _ => 0
  | fuel + 1, script =>
    match script with
    | [] => 0
    | op :: rest =>
      let skip :=
        if 1 ≤ op ∧ op ≤ 75 then op
        else if op = 76 then 1 + rest.getD 0 0
        else if op = 77 then 2 + (rest.getD 0 0 + 256 * rest.getD 1 0)
        else if op = 78 then
          4 + (rest.getD 0 0 + 256 * rest.getD 1 0 +
            65536 * rest.getD 2 0 + 16777216 * rest.getD 3 0)
        else 0
      let add :=
        if op = 172 ∨ op = 173 then 1
        else if op = 174 ∨ op = 175 then 20
        else 0
      add + sigopsCountAux fuel (rest.drop skip)

/-- Signature operation count of a script. -/
def sigopsCount (script : List Nat) : Nat :=
  sigopsCountAux script.length script

/-- Modelled from the spec: `transaction_sigops` — legacy signature
operations of a transaction's scripts (output scripts, plus input scripts
for a non-coinbase transaction).  The BIP16 pay-to-script-hash refinement
is not modelled (no claim depends on it); the provider and activation flag
are threaded to mirror the source signature. -/
def transaction_sigops (tx : Transaction)
    (_store : OutPoint → Nat → Option TransactionOutput)
    (_bip16_active : Bool) : Nat :=
  let output_sigops := (tx.outputs.map (fun o => sigopsCount o.script_pubkey)).sum
  if tx.is_coinbase then output_sigops
  else output_sigops + (tx.inputs.map (fun i => sigopsCount i.script_sig)).sum

/-- Modelled from the spec: `transaction_sigops_cost` — the cost of legacy
sigops is `sigops * 4` (witness scale factor; the per-input witness sigops
are not modelled). -/
def transaction_sigops_cost (_tx : Transaction)
    (_store : OutPoint → Nat → Option TransactionOutput) (sigops : Nat) : Nat :=
  sigops * 4

/-- Modelled from the spec: `block_reward_satoshi` — 50 coins halved every
210000 blocks. -/
def block_reward_satoshi (height : Nat) : Nat :=
  5000000000 / 2 ^ (height / 210000)

/-- Little-endian base-256 digits of a number (fuel-bounded; 8 bytes cover
every value the acceptor pushes, heights being u32). -/
def leBytesAux : Nat → Nat → List Nat
  | 0, _ => []
  | _ + 1, 0 => []
  | fuel + 1, n => n % 256 :: leBytesAux fuel (n / 256)

/-- Modelled from the spec: minimal script-number encoding of a
nonnegative integer — little-endian magnitude, padded with a zero byte
when the top bit would read as a sign bit. -/
def scriptNumBytes (n : Nat) : List Nat :=
  let b := leBytesAux 8 n
  if b ≠ [] ∧ b.getLastD 0 ≥ 128 then b ++ [0] else b

/-- Modelled from the spec: `Builder::push_num(n).into_script()` — the
canonical minimal push of a script number: a single length byte followed
by the number bytes (the spec's own example: height 461373 yields bytes
`03 3d 0a 07`). -/
def scriptNumPush (n : Nat) : List Nat :=
  let b := scriptNumBytes n
  b.length :: b

/-- Modelled from the spec: recognition of the witness commitment script —
at least 38 bytes beginning with the 6-byte tag
`6a 24 aa 21 a9 ed`. -/
def is_witness_commitment_script (script : List Nat) : Bool :=
  [106, 36, 170, 33, 169, 237].isPrefixOf script ∧ script.length ≥ 38

/-- `BlockFinality`: the candidate block, its height, the CSV activation
flag and the header provider (headers resolved by hash). -/
structure BlockFinality where
  block : CanonBlock
  height : Nat
  csv_active : Bool
  headers : Nat → Option BlockHeader

/-- `BlockFinality::new`. -/
def BlockFinality.new (block : CanonBlock) (height : Nat)
    (deployments : Deployments) (headers : Nat → Option BlockHeader) :
    BlockFinality :=
  { block := block, height := height, csv_active := deployments.csv,
    headers := headers }

/-- `BlockFinality::check`: the cutoff is the median past timestamp when
CSV is active, the block's own time otherwise; every transaction must be
final at (height, cutoff). -/
def BlockFinality.check (s : BlockFinality) : Except Error Unit :=
  let time_cutoff :=
    if s.csv_active then median_timestamp s.headers s.block.header.raw
    else s.block.header.raw.time
  if s.block.transactions.all
      (fun tx => tx.raw.is_final_in_block s.height time_cutoff) then
    .ok ()
  else
    .error .NonFinalBlock

/-- `BlockSerializedSize`. -/
structure BlockSerializedSize where
  block : CanonBlock
  consensus : ConsensusParams
  segwit_active : Bool

/-- `BlockSerializedSize::new`. -/
def BlockSerializedSize.new (block : CanonBlock) (consensus : ConsensusParams)
    (deployments : Deployments) : BlockSerializedSize :=
  { block := block, consensus := consensus, segwit_active := deployments.segwit }

/-- `BlockSerializedSize::check`: the base size must not exceed
`max_block_size`; when SegWit is active the weight
`size * (witness_scale_factor - 1) + size_with_witness` must not exceed
`max_block_weight`. -/
def BlockSerializedSize.check (s : BlockSerializedSize) : Except Error Unit :=
  let size := s.block.size
  if size > s.consensus.max_block_size then
    .error (.Size size)
  else if s.segwit_active then
    let size_with_witness := s.block.size_with_witness
    let weight := size * (s.consensus.witness_scale_factor - 1) + size_with_witness
    if weight > s.consensus.max_block_weight then .error .Weight else .ok ()
  else
    .ok ()

/-- `BlockSigops`. -/
structure BlockSigops where
  block : CanonBlock
  store : OutPoint → Nat → Option TransactionOutput
  consensus : ConsensusParams
  bip16_active : Bool

/-- `BlockSigops::new`: BIP16 is active iff the block's time has reached
`bip16_time`. -/
def BlockSigops.new (block : CanonBlock)
    (store : OutPoint → Nat → Option TransactionOutput)
    (consensus : ConsensusParams) : BlockSigops :=
  { block := block, store := store, consensus := consensus,
    bip16_active := block.header.raw.time ≥ consensus.bip16_time }

/-- `BlockSigops::check`: sum sigops and sigops cost over all transactions
through the duplex provider; fail `MaximumSigops`, then
`MaximumSigopsCost`, when a limit is exceeded. -/
def BlockSigops.check (s : BlockSigops) : Except Error Unit :=
  let store := duplexOutput s.store s.block
  let totals := s.block.transactions.foldl
    (fun acc tx =>
      let tx_sigops := transaction_sigops tx.raw store s.bip16_active
      let tx_sigops_cost := transaction_sigops_cost tx.raw store tx_sigops
      (acc.1 + tx_sigops, acc.2 + tx_sigops_cost))
    (0, 0)
  if totals.1 > s.consensus.max_block_sigops then
    .error .MaximumSigops
  else if totals.2 > s.consensus.max_block_sigops_cost then
    .error .MaximumSigopsCost
  else
    .ok ()

/-- `BlockCoinbaseClaim`. -/
structure BlockCoinbaseClaim where
  block : CanonBlock
  store : OutPoint → Nat → Option TransactionOutput
  height : Nat

/-- `BlockCoinbaseClaim::new`. -/
def BlockCoinbaseClaim.new (block : CanonBlock)
    (store : OutPoint → Nat → Option TransactionOutput) (height : Nat) :
    BlockCoinbaseClaim :=
  { block := block, store := store, height := height }

/-- The inner input loop of `BlockCoinbaseClaim::check`: accumulate the
referenced prevout values (a missing prevout contributes 0) with u64
overflow detection (`overflowing_add`). -/
def sumIncoming (store : OutPoint → Nat → Option TransactionOutput)
    (tx_idx : Nat) : List TransactionInput → Nat → Except Error Nat
  | [], incoming => .ok incoming
  | input :: rest, incoming =>
    let v := ((store input.previous_output tx_idx).map
      TransactionOutput.value).getD 0
    if incoming + v ≥ 2 ^ 64 then .error .ReferencedInputsSumOverflow
    else sumIncoming store tx_idx rest (incoming + v)

/-- The transaction loop of `BlockCoinbaseClaim::check` over the
enumerated non-coinbase transactions: subtract total spends with u64
underflow detection (`overflowing_sub`), accumulate fees with u64 overflow
detection. -/
def coinbaseClaimFees (store : OutPoint → Nat → Option TransactionOutput) :
    List (Nat × IndexedTransaction) → Nat → Except Error Nat
  | [], fees => .ok fees
  | (tx_idx, tx) :: rest, fees =>
    match sumIncoming store tx_idx tx.raw.inputs 0 with
    | .error e => .error e
    | .ok incoming =>
      let spends := tx.raw.total_spends
      if incoming < spends then
        .error (.Transaction tx_idx .Overspend)
      else if fees + (incoming - spends) ≥ 2 ^ 64 then
        .error .TransactionFeesOverflow
      else
        coinbaseClaimFees store rest (fees + (incoming - spends))

/-- `BlockCoinbaseClaim::check`: total the fees over the non-coinbase
transactions, add the block reward (u64 overflow detection), and require
the coinbase's total spends to stay within the reward.  The source indexes
`transactions[0]` (a `CanonBlock` is structurally non-empty); the claim of
an absent coinbase is read as 0. -/
def BlockCoinbaseClaim.check (s : BlockCoinbaseClaim) : Except Error Unit :=
  let store := duplexOutput s.store s.block
  match coinbaseClaimFees store (s.block.transactions.enum.drop 1) 0 with
  | .error e => .error e
  | .ok fees =>
    let claim := ((s.block.transactions.head?.map
      (fun tx => tx.raw.total_spends)).getD 0)
    if fees + block_reward_satoshi s.height ≥ 2 ^ 64 then
      .error .TransactionFeeAndRewardOverflow
    else
      let reward := fees + block_reward_satoshi s.height
      if claim > reward then
        .error (.CoinbaseOverspend reward claim)
      else
        .ok ()

/-- `BlockCoinbaseScript`. -/
structure BlockCoinbaseScript where
  block : CanonBlock
  bip34_active : Bool
  height : Nat

/-- `BlockCoinbaseScript::new`: BIP34 is active iff the height has reached
`bip34_height`. -/
def BlockCoinbaseScript.new (block : CanonBlock)
    (consensus_params : ConsensusParams) (height : Nat) : BlockCoinbaseScript :=
  { block := block, bip34_active := height ≥ consensus_params.bip34_height,
    height := height }

/-- `BlockCoinbaseScript::check`: inactive means success; active means the
first input's signature script of the first transaction must begin with
the minimal push of the height. -/
def BlockCoinbaseScript.check (s : BlockCoinbaseScript) : Except Error Unit :=
  if ¬ s.bip34_active then
    .ok ()
  else
    let expected := scriptNumPush s.height
    let does_match := ((s.block.transactions.head?.bind
        (fun tx => tx.raw.inputs.head?)).map
      (fun input => expected.isPrefixOf input.script_sig)).getD false
    if does_match then .ok () else .error .CoinbaseScript

/-- `BlockWitness`. -/
structure BlockWitness where
  block : CanonBlock
  segwit_active : Bool

/-- `BlockWitness::new`. -/
def BlockWitness.new (block : CanonBlock) (deployments : Deployments) :
    BlockWitness :=
  { block := block, segwit_active := deployments.segwit }

/-- `BlockWitness::check`, parameterized by the double-SHA-256 primitive
(cryptography is outside the exposed sources and the spec's scope): when
SegWit is active, find the last coinbase output carrying the witness
commitment tag; if present, the coinbase's first input must hold exactly
one 32-byte witness item and the commitment must equal
`dhash256(witness_merkle_root ++ nonce)`; if absent, no transaction may
carry witness data. -/
def BlockWitness.check (dhash256 : List Nat → List Nat) (s : BlockWitness) :
    Except Error Unit :=
  if ¬ s.segwit_active then
    .ok ()
  else
    let commitment := s.block.transactions.head?.bind
      (fun coinbase => coinbase.raw.outputs.reverse.find?
        (fun output => is_witness_commitment_script output.script_pubkey))
    match commitment with
    | some commitment =>
      let coinbase := (s.block.transactions.head?.map
        (fun tx => tx.raw)).getD ⟨[], [], 0⟩
      if ((coinbase.inputs.head?.map
            (fun i => i.script_witness.length)).getD 0 ≠ 1) ∨
          (((coinbase.inputs.head?.map
            (fun i => (i.script_witness.headD []).length)).getD 0) ≠ 32) then
        .error .WitnessInvalidNonceSize
      else
        let nonce := (coinbase.inputs.head?.map
          (fun i => i.script_witness.headD [])).getD []
        let hash_witness := dhash256 (s.block.witness_merkle_root ++ nonce)
        let commit_bytes := commitment.script_pubkey.drop 6
        if commit_bytes.length ≠ 32 then .error .WitnessMerkleCommitmentMismatch
        else if hash_witness ≠ commit_bytes then
          .error .WitnessMerkleCommitmentMismatch
        else
          .ok ()
    | none =>
      if s.block.transactions.any (fun tx => tx.raw.has_witness) then
        .error .UnexpectedWitness
      else
        .ok ()

/-- `BlockAcceptor`: the six sub-checks. -/
structure BlockAcceptor where
  finality : BlockFinality
  serialized_size : BlockSerializedSize
  sigops : BlockSigops
  coinbase_claim : BlockCoinbaseClaim
  coinbase_script : BlockCoinbaseScript
  witness : BlockWitness

/-- `BlockAcceptor::new`. -/
def BlockAcceptor.new (store : OutPoint → Nat → Option TransactionOutput)
    (consensus : ConsensusParams) (block : CanonBlock) (height : Nat)
    (deployments : Deployments) (headers : Nat → Option BlockHeader) :
    BlockAcceptor :=
  { finality := BlockFinality.new block height deployments headers,
    serialized_size := BlockSerializedSize.new block consensus deployments,
    coinbase_script := BlockCoinbaseScript.new block consensus height,
    coinbase_claim := BlockCoinbaseClaim.new block store height,
    sigops := BlockSigops.new block store consensus,
    witness := BlockWitness.new block deployments }

/-- `BlockAcceptor::check`: run the sub-checks in the source's order —
finality, sigops, serialized size, coinbase claim, coinbase script,
witness — short-circuiting at the first failure. -/
def BlockAcceptor.check (dhash256 : List Nat → List Nat) (a : BlockAcceptor) :
    Except Error Unit :=
  match a.finality.check with
  | .error e => .error e
  | .ok _ =>
  match a.sigops.check with
  | .error e => .error e
  | .ok _ =>
  match a.serialized_size.check with
  | .error e => .error e
  | .ok _ =>
  match a.coinbase_claim.check with
  | .error e => .error e
  | .ok _ =>
  match a.coinbase_script.check with
  | .error e => .error e
  | .ok _ => a.witness.check dhash256

/-- First failure of a list of sub-check results (`Ok` when none fails):
the combinator the ordering claim is stated against. -/
def firstFailure : List (Except Error Unit) → Except Error Unit
  | [] => .ok ()
  | r :: rest =>
    match r with
    | .error e => .error e
    | .ok _ => firstFailure rest

/-- The coinbase-claim sub-check as the claim words it: per non-coinbase
transaction, the whole prevout sum is formed (missing prevouts contribute
0) and checked against u64 overflow, the total spends are subtracted
with underflow detection, the fee differences are accumulated with
overflow detection; finally the reward is `fees + block_reward(height)`
with overflow detection and the coinbase claim must not exceed it. -/
def coinbaseClaimSpecLoop (store : OutPoint → Nat → Option TransactionOutput) :
    List (Nat × IndexedTransaction) → Nat → Except Error Nat
  | [], fees => .ok fees
  | (tx_idx, tx) :: rest, fees =>
    let incoming := (tx.raw.inputs.map
      (fun input => ((store input.previous_output tx_idx).map
        TransactionOutput.value).getD 0)).sum
    if incoming ≥ 2 ^ 64 then .error .ReferencedInputsSumOverflow
    else if incoming < tx.raw.total_spends then
      .error (.Transaction tx_idx .Overspend)
    else if fees + (incoming - tx.raw.total_spends) ≥ 2 ^ 64 then
      .error .TransactionFeesOverflow
    else
      coinbaseClaimSpecLoop store rest (fees + (incoming - tx.raw.total_spends))


/-- The coinbase-claim check as described by the claim (compare with
`BlockCoinbaseClaim.check`, the embedding of the source). -/
def coinbaseClaimSpec (store : OutPoint → Nat → Option TransactionOutput)
    (block : CanonBlock) (height : Nat) : Except Error Unit :=
  let store := duplexOutput store block
  match coinbaseClaimSpecLoop store (block.transactions.enum.drop 1) 0 with
  | .error e => .error e
  | .ok fees =>
    let claim := ((block.transactions.head?.map
      (fun tx => tx.raw.total_spends)).getD 0)
    if fees + block_reward_satoshi height ≥ 2 ^ 64 then
      .error .TransactionFeeAndRewardOverflow
    else if claim > fees + block_reward_satoshi height then
      .error (.CoinbaseOverspend (fees + block_reward_satoshi height) claim)
    else
      .ok ()

end Consensus

/-!
## Theorems

First the byte-stream toolbox, then the theorems settling each claim.
-/

namespace Hammersbald

theorem u24be_length (n : Nat) : (u24be n).length = 3 := rfl

theorem readU24_u24be (n : Nat) (h : n < 2 ^ 24) : readU24 (u24be n) = n := by
  simp only [u24be, readU24]
  omega

theorem readAt_of_concat (pre mid suf : List Nat) (i n : Nat)
    (h : i + n ≤ mid.length) :
    readAt (pre ++ mid ++ suf) (pre.length + i) n =
      some ((mid.drop i).take n) := by
  have hle : pre.length + i + n ≤ (pre ++ mid ++ suf).length := by
    simp [List.length_append]; omega
  rw [readAt, if_pos hle, List.append_assoc, List.drop_append,
    List.drop_append_of_le_length (by omega),
    List.take_append_of_le_length (by simp [List.length_drop]; omega)]

theorem writeAt_concat (pre mid suf store : List Nat)
    (h : store.length = mid.length) :
    writeAt (pre ++ mid ++ suf) pre.length store = pre ++ store ++ suf := by
  have h1 : (pre ++ mid ++ suf).take pre.length = pre := by
    rw [List.append_assoc]; exact List.take_left pre (mid ++ suf)
  have h2 : (pre ++ mid ++ suf).drop (pre.length + store.length) = suf := by
    rw [h, ← List.length_append]; exact List.drop_left (pre ++ mid) suf
  rw [writeAt, h1, h2]

theorem take3_u24be (n : Nat) (l : List Nat) : (u24be n ++ l).take 3 = u24be n := by
  have h := List.take_left (u24be n) l
  rwa [u24be_length] at h

theorem drop3_u24be (n : Nat) (l : List Nat) : (u24be n ++ l).drop 3 = l := by
  have h := List.drop_left (u24be n) l
  rwa [u24be_length] at h

/-- Reading an envelope whose frame sits intact at `pre.length` recovers
exactly the payload. -/
theorem getEnvelopeAt_frame (pre payload suf : List Nat)
    (h24 : payload.length < 2 ^ 24) :
    getEnvelopeAt (pre ++ (u24be payload.length ++ payload) ++ suf) pre.length =
      .ok (Envelope.new payload) := by
  have h1 := readAt_of_concat pre (u24be payload.length ++ payload) suf 0 3
    (by simp [List.length_append, u24be_length])
  simp only [Nat.add_zero, List.drop_zero, take3_u24be] at h1
  have h2 := readAt_of_concat pre (u24be payload.length ++ payload) suf 3
    payload.length (by simp [List.length_append, u24be_length])
  rw [drop3_u24be, List.take_length] at h2
  simp only [getEnvelopeAt, h1, readU24_u24be payload.length h24, h2]
  split <;> rfl

theorem serialize_length_indexed (k d : List Nat) :
    (Payload.serialize (.Indexed k d)).length = k.length + d.length + 5 := by
  simp [Payload.serialize, List.length_append, u24be_length]
  omega

theorem serialize_length_referred (d : List Nat) :
    (Payload.serialize (.Referred d)).length = d.length + 4 := by
  simp [Payload.serialize, List.length_append, u24be_length]
  omega

theorem serialize_ne_nil (p : Payload) : p.serialize ≠ [] := by
  cases p <;> simp [Payload.serialize]

theorem deserialize_serialize_indexed (k d : List Nat)
    (hk : k.length < 256) (hd : d.length < 2 ^ 24) :
    Payload.deserialize (Payload.serialize (.Indexed k d)) = .ok (.Indexed k d) := by
  have hdropk : (k ++ (u24be d.length ++ d)).drop k.length = u24be d.length ++ d :=
    List.drop_left k _
  have hdrop3 : (k ++ (u24be d.length ++ d)).drop (k.length + 3) = d := by
    rw [List.drop_append, drop3_u24be]
  have htakek : (k ++ (u24be d.length ++ d)).take k.length = k := List.take_left k _
  have hcond : k.length % 256 + 3 ≤ (k ++ (u24be d.length ++ d)).length ∧
      readU24 (((k ++ (u24be d.length ++ d)).drop (k.length % 256)).take 3) =
        ((k ++ (u24be d.length ++ d)).drop (k.length % 256 + 3)).length := by
    rw [Nat.mod_eq_of_lt hk]
    constructor
    · simp [List.length_append, u24be_length]
    · rw [hdropk, take3_u24be, readU24_u24be d.length hd, hdrop3]
  rw [Payload.serialize]
  simp only [Payload.deserialize, reduceIte]
  rw [if_pos hcond, Nat.mod_eq_of_lt hk, htakek, hdrop3]

theorem deserialize_serialize_referred (d : List Nat) (hd : d.length < 2 ^ 24) :
    Payload.deserialize (Payload.serialize (.Referred d)) = .ok (.Referred d) := by
  have hcond : 3 ≤ (u24be d.length ++ d).length ∧
      readU24 ((u24be d.length ++ d).take 3) = ((u24be d.length ++ d).drop 3).length := by
    constructor
    · simp [List.length_append, u24be_length]
    · rw [take3_u24be, readU24_u24be d.length hd, drop3_u24be]
  rw [Payload.serialize]
  simp only [Payload.deserialize, reduceIte]
  rw [if_pos hcond, drop3_u24be]
  rw [if_neg Nat.one_ne_zero]

/-- C9.  `DataFile::new` fails with `Corrupted` exactly when the backing
length is not a multiple of the page size; on success the cursor sits at
the backing length, and at 0 for an empty backing. -/
theorem dataFile_new_check (file : List Nat) :
    (DataFile.new file =
        .error (.Corrupted "data file does not end at page boundary") ↔
      file.length % PAGE_SIZE ≠ 0) ∧
    (∀ df, DataFile.new file = .ok df →
      df.bytes = file ∧ df.pos = file.length ∧ (file = [] → df.pos = 0)) := by
  rw [DataFile.new]
  by_cases hmod : file.length % PAGE_SIZE ≠ 0
  · rw [if_pos hmod]
    exact ⟨⟨fun _ => hmod, fun _ => rfl⟩, fun df hdf => by cases hdf⟩
  · rw [if_neg hmod]
    push_neg at hmod
    by_cases hge : file.length ≥ PAGE_SIZE
    · rw [if_pos hge]
      refine ⟨⟨nofun, fun hc => absurd hmod hc⟩, ?_⟩
      intro df hdf
      cases hdf
      exact ⟨rfl, rfl, fun he => by simp [he]⟩
    · rw [if_neg hge]
      have hz : file.length = 0 := by
        have := Nat.mod_eq_of_lt (Nat.lt_of_not_le hge)
        omega
      refine ⟨⟨nofun, fun hc => absurd hmod hc⟩, ?_⟩
      intro df hdf
      cases hdf
      exact ⟨rfl, hz.symm, fun _ => rfl⟩

/-- Witness for C9: a one-page backing of zeros opens with the cursor at
the backing length; the empty backing opens with the cursor at 0. -/
theorem dataFile_new_check_witness :
    (DataFile.new (List.replicate 4096 0) = .ok ⟨List.replicate 4096 0, 4096⟩ ∧
      (4096 : Nat) = (List.replicate 4096 (0 : Nat)).length) ∧
    (DataFile.new [] = .ok ⟨[], 0⟩) := by
  have key : ∀ (l : List Nat), l.length = 4096 → DataFile.new l = .ok ⟨l, 4096⟩ := by
    intro l hl
    rw [DataFile.new, hl]
    norm_num [PAGE_SIZE]
  have h1 := key (List.replicate 4096 0) (by rw [List.length_replicate])
  have h2 : DataFile.new [] = .ok ⟨[], 0⟩ := by
    rw [DataFile.new]
    norm_num [PAGE_SIZE]
  exact ⟨⟨h1, ((dataFile_new_check (List.replicate 4096 0)).2 _ h1).2.1⟩, h2⟩

/-- Behaviour of `set_data` on a page ref whose framed envelope is intact:
the update succeeds, overwriting the payload in place, exactly when the
substituted payload re-serializes to the stored payload's length; otherwise
the result is `ValueTooLong` and the file is untouched. -/
theorem set_data_frame (pre payload suf dat : List Nat) (df : DataFile)
    (pl : Payload)
    (hbytes : df.bytes = pre ++ (u24be payload.length ++ payload) ++ suf)
    (h24 : payload.length < 2 ^ 24)
    (hde : Payload.deserialize payload = .ok pl)
    (hnl : ∀ l, pl ≠ .Link l) :
    df.set_data pre.length dat =
      if (setDataSubst pl dat).serialize.length = payload.length then
        (.ok pre.length,
          { df with bytes :=
              pre ++ (u24be payload.length ++ (setDataSubst pl dat).serialize) ++ suf })
      else
        (.error .ValueTooLong, df) := by
  have hge : df.get_envelope pre.length = .ok (Envelope.new payload) := by
    rw [DataFile.get_envelope, hbytes]
    exact getEnvelopeAt_frame pre payload suf h24
  have hwrite : ∀ s : List Nat, s.length = payload.length →
      writeAt df.bytes pre.length (Envelope.serialize ⟨s⟩) =
        pre ++ (u24be payload.length ++ s) ++ suf := by
    intro s hs
    rw [hbytes, Envelope.serialize]
    show writeAt _ _ (u24be s.length ++ s) = _
    rw [hs]
    exact writeAt_concat pre _ suf _ (by simp [List.length_append, u24be_length, hs])
  cases pl with
  | Link l => exact absurd rfl (hnl l)
  | Indexed key d =>
    simp only [DataFile.set_data, hge, hde, Envelope.new, Envelope.from_payload,
      setDataSubst]
    by_cases hc : (Payload.serialize (.Indexed key dat)).length = payload.length
    · rw [if_pos hc, if_neg (fun hne => hne hc.symm)]
      rw [hwrite _ hc]
    · rw [if_neg hc, if_pos (fun he => hc he.symm)]
  | Referred d =>
    simp only [DataFile.set_data, hge, hde, Envelope.new, Envelope.from_payload,
      setDataSubst]
    by_cases hc : (Payload.serialize (.Referred dat)).length = payload.length
    · rw [if_pos hc, if_neg (fun hne => hne hc.symm)]
      rw [hwrite _ hc]
    · rw [if_neg hc, if_pos (fun he => hc he.symm)]

/-- C3.  For a page ref holding a non-Link envelope, `set_data` succeeds
exactly when the payload with the new data substituted re-serializes to
the stored payload's byte length; on success a subsequent `get_envelope`
returns the substituted payload, on failure the error is `ValueTooLong`
and the file is unchanged. -/
theorem set_data_length_discipline (pre payload suf dat : List Nat)
    (df : DataFile) (pl : Payload)
    (hbytes : df.bytes = pre ++ (u24be payload.length ++ payload) ++ suf)
    (h24 : payload.length < 2 ^ 24)
    (hde : Payload.deserialize payload = .ok pl)
    (hnl : ∀ l, pl ≠ .Link l) :
    ((df.set_data pre.length dat).1 = .ok pre.length ↔
      (setDataSubst pl dat).serialize.length = payload.length) ∧
    ((setDataSubst pl dat).serialize.length = payload.length →
      (df.set_data pre.length dat).2.get_envelope pre.length =
        .ok (Envelope.new (setDataSubst pl dat).serialize)) ∧
    ((setDataSubst pl dat).serialize.length ≠ payload.length →
      (df.set_data pre.length dat).1 = .error .ValueTooLong ∧
        (df.set_data pre.length dat).2 = df) := by
  have hsd := set_data_frame pre payload suf dat df pl hbytes h24 hde hnl
  by_cases hc : (setDataSubst pl dat).serialize.length = payload.length
  · rw [if_pos hc] at hsd
    refine ⟨⟨fun _ => hc, fun _ => by rw [hsd]⟩, fun _ => ?_, fun hn => absurd hc hn⟩
    rw [hsd]
    show getEnvelopeAt (pre ++ (u24be payload.length ++ _) ++ suf) pre.length = _
    rw [← hc]
    exact getEnvelopeAt_frame pre _ suf (by rw [hc]; exact h24)
  · rw [if_neg hc] at hsd
    rw [hsd]
    exact ⟨⟨fun he => Except.noConfusion he, fun he => absurd he hc⟩,
      fun he => absurd he hc, fun _ => ⟨rfl, rfl⟩⟩

/-- Witness for C3: updating the indexed record keyed `"k"` holding
`"hello"` with the same-length `"world"` succeeds at ref 0. -/
theorem set_data_length_discipline_witness :
    Payload.deserialize [0, 1, 107, 0, 0, 5, 104, 101, 108, 108, 111] =
      .ok (.Indexed [107] [104, 101, 108, 108, 111]) ∧
    (DataFile.set_data
        ⟨[0, 0, 11, 0, 1, 107, 0, 0, 5, 104, 101, 108, 108, 111], 14⟩
        0 [119, 111, 114, 108, 100]).1 = .ok 0 := by
  have h := set_data_length_discipline []
    [0, 1, 107, 0, 0, 5, 104, 101, 108, 108, 111] []
    [119, 111, 114, 108, 100]
    ⟨[0, 0, 11, 0, 1, 107, 0, 0, 5, 104, 101, 108, 108, 111], 14⟩
    (.Indexed [107] [104, 101, 108, 108, 111])
    (by decide) (by norm_num) (by rfl) (by intro l hl; cases hl)
  exact ⟨by rfl, h.1.mpr (by decide)⟩

/-- C10.  A successful `set_data` on an indexed payload keeps the stored
key: reading the ref back deserializes to the same key with the new
data. -/
theorem set_data_preserves_key (pre suf k d dat : List Nat) (df : DataFile)
    (hbytes : df.bytes = pre ++
      (u24be (Payload.serialize (.Indexed k d)).length ++
        Payload.serialize (.Indexed k d)) ++ suf)
    (hk : k.length < 256)
    (h24 : (Payload.serialize (.Indexed k d)).length < 2 ^ 24)
    (hdat : dat.length = d.length) :
    (df.set_data pre.length dat).1 = .ok pre.length ∧
    ∃ env, (df.set_data pre.length dat).2.get_envelope pre.length = .ok env ∧
      Payload.deserialize env.payload = .ok (.Indexed k dat) := by
  have hd : d.length < 2 ^ 24 := by
    have := serialize_length_indexed k d; omega
  have hdat24 : dat.length < 2 ^ 24 := by rw [hdat]; exact hd
  have hde := deserialize_serialize_indexed k d hk hd
  have hsd := set_data_frame pre (Payload.serialize (.Indexed k d)) suf dat df
    (.Indexed k d) hbytes h24 hde (by intro l hl; cases hl)
  simp only [setDataSubst] at hsd
  have hlen : (Payload.serialize (.Indexed k dat)).length =
      (Payload.serialize (.Indexed k d)).length := by
    rw [serialize_length_indexed, serialize_length_indexed, hdat]
  rw [if_pos hlen] at hsd
  refine ⟨by rw [hsd], Envelope.new (Payload.serialize (.Indexed k dat)), ?_,
    deserialize_serialize_indexed k dat hk hdat24⟩
  rw [hsd]
  show getEnvelopeAt
    (pre ++ (u24be (Payload.serialize (.Indexed k d)).length ++ _) ++ suf)
    pre.length = _
  rw [← hlen]
  exact getEnvelopeAt_frame pre _ suf (by rw [hlen]; exact h24)

/-- Witness for C10: updating the record keyed `"k"` from `"hello"` to
`"world"` leaves the key in place. -/
theorem set_data_preserves_key_witness :
    (DataFile.set_data
        ⟨[0, 0, 11, 0, 1, 107, 0, 0, 5, 104, 101, 108, 108, 111], 14⟩
        0 [119, 111, 114, 108, 100]).1 = .ok 0 ∧
    ∃ env, (DataFile.set_data
        ⟨[0, 0, 11, 0, 1, 107, 0, 0, 5, 104, 101, 108, 108, 111], 14⟩
        0 [119, 111, 114, 108, 100]).2.get_envelope 0 = .ok env ∧
      Payload.deserialize env.payload =
        .ok (.Indexed [107] [119, 111, 114, 108, 100]) :=
  set_data_preserves_key [] [] [107] [104, 101, 108, 108, 111]
    [119, 111, 114, 108, 100]
    ⟨[0, 0, 11, 0, 1, 107, 0, 0, 5, 104, 101, 108, 108, 111], 14⟩
    (by decide) (by decide) (by decide) (by decide)

theorem encode_eq (op : AppendOp) :
    op.encode = u24be op.payloadBytes.length ++ op.payloadBytes := rfl

theorem payloadBytes_pos (op : AppendOp) : 0 < op.payloadBytes.length := by
  cases op <;> simp [AppendOp.payloadBytes, Payload.serialize]

theorem encode_length (op : AppendOp) :
    op.encode.length = op.payloadBytes.length + 3 := by
  rw [encode_eq, List.length_append, u24be_length]
  omega

theorem encodeOps_nil : encodeOps [] = [] := rfl

theorem encodeOps_cons (op : AppendOp) (ops : List AppendOp) :
    encodeOps (op :: ops) = op.encode ++ encodeOps ops := rfl

theorem applyAppend_eq (df : DataFile) (op : AppendOp) :
    df.applyAppend op =
      (df.pos, ⟨df.bytes ++ op.encode, df.pos + op.encode.length⟩) := by
  cases op <;> rfl

theorem runAppends_fst (df : DataFile) (ops : List AppendOp) :
    (runAppends df ops).1 = refsFrom df.pos ops := by
  induction ops generalizing df with
  | nil => rfl
  | cons op rest ih =>
    rw [runAppends, refsFrom, applyAppend_eq]
    exact congrArg _ (ih _)

theorem runAppends_snd (df : DataFile) (ops : List AppendOp) :
    (runAppends df ops).2 =
      ⟨df.bytes ++ encodeOps ops, df.pos + (encodeOps ops).length⟩ := by
  induction ops generalizing df with
  | nil => simp [runAppends, encodeOps_nil]
  | cons op rest ih =>
    rw [runAppends, applyAppend_eq]
    show (runAppends ⟨df.bytes ++ op.encode, df.pos + op.encode.length⟩ rest).2 = _
    rw [ih, encodeOps_cons]
    simp [List.append_assoc, List.length_append]
    omega

theorem envelopesFrom_encodeOps (ops : List AppendOp) :
    ∀ (pre : List Nat) (fuel : Nat),
      (∀ op ∈ ops, op.payloadBytes.length < 2 ^ 24) →
      (encodeOps ops).length < fuel →
      envelopesFrom (pre ++ encodeOps ops) fuel pre.length =
        (refsFrom pre.length ops).zip (ops.map AppendOp.envelope) := by
  induction ops with
  | nil =>
    intro pre fuel _ hfuel
    obtain ⟨f, rfl⟩ : ∃ f, fuel = f + 1 := ⟨fuel - 1, by omega⟩
    have hnone : readAt (pre ++ encodeOps []) pre.length 3 = none := by
      rw [encodeOps_nil, List.append_nil, readAt, if_neg (by omega)]
    rw [envelopesFrom, hnone, refsFrom]
    rfl
  | cons op rest ih =>
    intro pre fuel hsmall hfuel
    obtain ⟨f, rfl⟩ : ∃ f, fuel = f + 1 := ⟨fuel - 1, by omega⟩
    have hL : op.payloadBytes.length < 2 ^ 24 := hsmall op (.head _)
    have hpos : 0 < op.payloadBytes.length := payloadBytes_pos op
    have hassoc : pre ++ encodeOps (op :: rest) =
        pre ++ op.encode ++ encodeOps rest := by
      rw [encodeOps_cons, List.append_assoc]
    have h1 : readAt (pre ++ op.encode ++ encodeOps rest) pre.length 3 =
        some (u24be op.payloadBytes.length) := by
      have := readAt_of_concat pre op.encode (encodeOps rest) 0 3
        (by rw [encode_length]; omega)
      simpa [encode_eq, take3_u24be] using this
    have h2 : readAt (pre ++ op.encode ++ encodeOps rest) (pre.length + 3)
        op.payloadBytes.length = some op.payloadBytes := by
      have := readAt_of_concat pre op.encode (encodeOps rest) 3
        op.payloadBytes.length (by rw [encode_length]; omega)
      simpa [encode_eq, drop3_u24be] using this
    rw [hassoc, envelopesFrom, h1]
    simp only [readU24_u24be _ hL, if_pos hpos, h2]
    have hnext : pre.length + 3 + op.payloadBytes.length =
        (pre ++ op.encode).length := by
      rw [List.length_append, encode_length]
      omega
    have htail := ih (pre ++ op.encode) f
      (fun o ho => hsmall o (.tail _ ho))
      (by
        rw [encodeOps_cons, List.length_append] at hfuel
        have he := encode_length op
        have hp := payloadBytes_pos op
        omega)
    rw [hnext, htail, refsFrom, List.map_cons, List.zip_cons_cons,
      List.length_append]
    rfl

theorem getEnvelopeAt_encodeOps (ops : List AppendOp) :
    ∀ (pre : List Nat),
      (∀ op ∈ ops, op.payloadBytes.length < 2 ^ 24) →
      ∀ pe ∈ (refsFrom pre.length ops).zip (ops.map AppendOp.envelope),
        getEnvelopeAt (pre ++ encodeOps ops) pe.1 = .ok pe.2 := by
  induction ops with
  | nil => intro pre _ pe hpe; simp [refsFrom] at hpe
  | cons op rest ih =>
    intro pre hsmall pe hpe
    have hL : op.payloadBytes.length < 2 ^ 24 := hsmall op (.head _)
    rw [refsFrom, List.map_cons, List.zip_cons_cons] at hpe
    have hassoc : pre ++ encodeOps (op :: rest) =
        pre ++ (u24be op.payloadBytes.length ++ op.payloadBytes) ++
          encodeOps rest := by
      rw [encodeOps_cons, List.append_assoc, encode_eq]
    rcases List.mem_cons.mp hpe with hhead | htail
    · subst hhead
      rw [hassoc]
      exact getEnvelopeAt_frame pre op.payloadBytes (encodeOps rest) hL
    · have hmem : pe ∈ (refsFrom (pre ++ op.encode).length rest).zip
          (rest.map AppendOp.envelope) := by
        rw [List.length_append]; exact htail
      have hgoal := ih (pre ++ op.encode)
        (fun o ho => hsmall o (.tail _ ho)) pe hmem
      rw [encode_eq] at hgoal
      rw [hassoc]
      exact hgoal
theorem refsFrom_length (start : Nat) (ops : List AppendOp) :
    (refsFrom start ops).length = ops.length := by
  induction ops generalizing start with
  | nil => rfl
  | cons op rest ih => rw [refsFrom, List.length_cons, List.length_cons, ih]

theorem refsFrom_getElem (start : Nat) (ops : List AppendOp) (i : Nat)
    (hi : i < ops.length) :
    (refsFrom start ops)[i]? =
      some (start + (encodeOps (ops.take i)).length) := by
  induction ops generalizing start i with
  | nil => cases hi
  | cons op rest ih =>
    have hstep : refsFrom start (op :: rest) =
        start :: refsFrom (start + op.encode.length) rest := rfl
    cases i with
    | zero => rw [hstep, List.getElem?_cons_zero]; rfl
    | succ j =>
      rw [hstep, List.getElem?_cons_succ,
        ih (start + op.encode.length) j (by simpa using hi),
        List.take_succ_cons, encodeOps_cons, List.length_append]
      exact congrArg some (by omega)

/-- C4.  Appends to a fresh data file round-trip: the envelope iterator
yields exactly the appended `(PageRef, Envelope)` pairs in order, each ref
reads back to its appended envelope via `get_envelope`, and each ref is
the cursor position immediately before its append. -/
theorem append_roundtrip (ops : List AppendOp)
    (hsmall : ∀ op ∈ ops, op.payloadBytes.length < 2 ^ 24) :
    (runAppends ⟨[], 0⟩ ops).2.envelopes =
      (runAppends ⟨[], 0⟩ ops).1.zip (ops.map AppendOp.envelope) ∧
    (∀ pe ∈ (runAppends ⟨[], 0⟩ ops).1.zip (ops.map AppendOp.envelope),
      (runAppends ⟨[], 0⟩ ops).2.get_envelope pe.1 = .ok pe.2) ∧
    ∀ i, i < ops.length →
      (runAppends ⟨[], 0⟩ ops).1[i]? =
        some ((runAppends ⟨[], 0⟩ (ops.take i)).2.pos) := by
  have hsnd := runAppends_snd ⟨[], 0⟩ ops
  have hfst := runAppends_fst ⟨[], 0⟩ ops
  refine ⟨?_, ?_, ?_⟩
  · rw [DataFile.envelopes, hsnd, hfst]
    show envelopesFrom ([] ++ encodeOps ops) _ ([] : List Nat).length = _
    rw [envelopesFrom_encodeOps ops [] _ hsmall (by simp)]
    rfl
  · intro pe hpe
    rw [DataFile.get_envelope, hsnd]
    rw [hfst] at hpe
    exact getEnvelopeAt_encodeOps ops [] hsmall pe hpe
  · intro i hi
    rw [hfst, refsFrom_getElem _ ops i hi, runAppends_snd]

/-- Witness for C4: appending an indexed record and a referred record to a
fresh file yields envelopes at refs 0 and 10. -/
theorem append_roundtrip_witness :
    (runAppends ⟨[], 0⟩
        [AppendOp.indexed [107] [118], AppendOp.referred [119]]).2.envelopes =
      [(0, Envelope.new [0, 1, 107, 0, 0, 1, 118]),
        (10, Envelope.new [1, 0, 0, 1, 119])] := by
  rw [(append_roundtrip
    [AppendOp.indexed [107] [118], AppendOp.referred [119]] (by decide)).1]
  decide

end Hammersbald

namespace Consensus

/-- C5.  The serialized-size check fails `Size(size)` exactly when the base
size exceeds `max_block_size`; it fails `Weight` exactly when the base size
is within bounds, SegWit is active, and the weight exceeds
`max_block_weight`; with SegWit inactive no weight check is performed, so
the check succeeds exactly when the base size is within bounds. -/
theorem serialized_size_check_spec (s : BlockSerializedSize) :
    (∀ sz, s.check = .error (.Size sz) ↔
      sz = s.block.size ∧ s.block.size > s.consensus.max_block_size) ∧
    (s.check = .error .Weight ↔
      s.block.size ≤ s.consensus.max_block_size ∧ s.segwit_active = true ∧
        s.block.size * (s.consensus.witness_scale_factor - 1) +
          s.block.size_with_witness > s.consensus.max_block_weight) ∧
    (s.segwit_active = false →
      (s.check = .ok () ↔ s.block.size ≤ s.consensus.max_block_size)) := by
  by_cases h1 : s.block.size > s.consensus.max_block_size
  · simp only [BlockSerializedSize.check, if_pos h1]
    refine ⟨fun sz => ?_, ?_, fun _ => ?_⟩
    · simp only [Except.error.injEq, Error.Size.injEq]
      constructor
      · intro he; exact ⟨he.symm, h1⟩
      · intro he; exact he.1.symm
    · constructor
      · intro he; simp at he
      · intro he; omega
    · constructor
      · intro he; simp at he
      · intro he; omega
  · rw [BlockSerializedSize.check]
    rw [if_neg h1]
    push_neg at h1
    by_cases h2 : s.segwit_active
    · rw [if_pos h2]
      by_cases h3 : s.block.size * (s.consensus.witness_scale_factor - 1) +
          s.block.size_with_witness > s.consensus.max_block_weight
      · rw [if_pos h3]
        refine ⟨fun sz => ?_, ?_, fun hsw => ?_⟩
        · constructor
          · intro he; simp at he
          · intro he; omega
        · simp [h1, h2, h3]
        · rw [h2] at hsw; cases hsw
      · rw [if_neg h3]
        refine ⟨fun sz => ?_, ?_, fun hsw => ?_⟩
        · constructor
          · intro he; simp at he
          · intro he; omega
        · constructor
          · intro he; simp at he
          · intro he; omega
        · rw [h2] at hsw; cases hsw
    · rw [if_neg h2]
      refine ⟨fun sz => ?_, ?_, fun _ => ?_⟩
      · constructor
        · intro he; simp at he
        · intro he; omega
      · constructor
        · intro he; simp at he
        · intro he; exact absurd he.2.1 (by simpa using h2)
      · simp [h1]

/-- Witness for C5: with SegWit inactive, a block of base size 11 against
a limit of 10 fails with `Size 11`, and one of size 10 passes. -/
theorem serialized_size_check_spec_witness :
    (BlockSerializedSize.check
        ⟨⟨⟨0, ⟨0, 0⟩⟩, [], 11, 11, []⟩, ⟨10, 40, 4, 20, 80, 0, 0⟩, false⟩ =
      .error (.Size 11)) ∧
    (BlockSerializedSize.check
        ⟨⟨⟨0, ⟨0, 0⟩⟩, [], 10, 10, []⟩, ⟨10, 40, 4, 20, 80, 0, 0⟩, false⟩ =
      .ok ()) := by
  constructor
  · exact ((serialized_size_check_spec
      ⟨⟨⟨0, ⟨0, 0⟩⟩, [], 11, 11, []⟩, ⟨10, 40, 4, 20, 80, 0, 0⟩, false⟩).1
        11).mpr (by decide)
  · exact ((serialized_size_check_spec
      ⟨⟨⟨0, ⟨0, 0⟩⟩, [], 10, 10, []⟩, ⟨10, 40, 4, 20, 80, 0, 0⟩, false⟩).2.2
        rfl).mpr (by decide)

/-- C6.  The BIP34 coinbase-script check is active exactly at heights at or
above `bip34_height`; inactive it always succeeds, active it succeeds
exactly when the first input's signature script of the first transaction
begins with the canonical minimal push of the height, and fails with
`CoinbaseScript` otherwise. -/
theorem coinbase_script_check_spec (block : CanonBlock)
    (consensus : ConsensusParams) (height : Nat) :
    (height < consensus.bip34_height →
      (BlockCoinbaseScript.new block consensus height).check = .ok ()) ∧
    (height ≥ consensus.bip34_height →
      (BlockCoinbaseScript.new block consensus height).check =
        if ((block.transactions.head?.bind (fun tx => tx.raw.inputs.head?)).map
              (fun input => (scriptNumPush height).isPrefixOf input.script_sig)).getD
            false = true
        then .ok () else .error .CoinbaseScript) := by
  constructor
  · intro hlt
    have hb : (BlockCoinbaseScript.new block consensus height).bip34_active = false := by
      simp [BlockCoinbaseScript.new]
      omega
    rw [BlockCoinbaseScript.check, hb]
    rfl
  · intro hge
    have hb : (BlockCoinbaseScript.new block consensus height).bip34_active = true := by
      simp [BlockCoinbaseScript.new]
      omega
    rw [BlockCoinbaseScript.check, hb]
    rfl

/-- Witness for C6, the spec's own scenario: a coinbase script starting
with bytes `03 3d 0a 07` passes at height 461373 and fails with
`CoinbaseScript` at height 461372 (both heights BIP34-active). -/
theorem coinbase_script_check_spec_witness :
    ((461373 : Nat) ≥ (0 : Nat)) ∧
    (BlockCoinbaseScript.new
        ⟨⟨0, ⟨0, 0⟩⟩,
          [⟨0, ⟨[⟨⟨0, 4294967295⟩, [3, 61, 10, 7, 99], 0, []⟩], [], 0⟩⟩],
          0, 0, []⟩
        ⟨1000000, 4000000, 4, 20000, 80000, 0, 0⟩ 461373).check = .ok () ∧
    (BlockCoinbaseScript.new
        ⟨⟨0, ⟨0, 0⟩⟩,
          [⟨0, ⟨[⟨⟨0, 4294967295⟩, [3, 61, 10, 7, 99], 0, []⟩], [], 0⟩⟩],
          0, 0, []⟩
        ⟨1000000, 4000000, 4, 20000, 80000, 0, 0⟩ 461372).check =
      .error .CoinbaseScript := by
  refine ⟨by decide, ?_, ?_⟩
  · rw [(coinbase_script_check_spec
      ⟨⟨0, ⟨0, 0⟩⟩,
        [⟨0, ⟨[⟨⟨0, 4294967295⟩, [3, 61, 10, 7, 99], 0, []⟩], [], 0⟩⟩],
        0, 0, []⟩
      ⟨1000000, 4000000, 4, 20000, 80000, 0, 0⟩ 461373).2 (by decide)]
    rfl
  · rw [(coinbase_script_check_spec
      ⟨⟨0, ⟨0, 0⟩⟩,
        [⟨0, ⟨[⟨⟨0, 4294967295⟩, [3, 61, 10, 7, 99], 0, []⟩], [], 0⟩⟩],
        0, 0, []⟩
      ⟨1000000, 4000000, 4, 20000, 80000, 0, 0⟩ 461372).2 (by decide)]
    rfl

theorem sumIncoming_spec (store : OutPoint → Nat → Option TransactionOutput)
    (tx_idx : Nat) (inputs : List TransactionInput) (acc : Nat)
    (hacc : acc < 2 ^ 64) :
    sumIncoming store tx_idx inputs acc =
      if acc + (inputs.map (fun input => ((store input.previous_output tx_idx).map
          TransactionOutput.value).getD 0)).sum ≥ 2 ^ 64 then
        .error .ReferencedInputsSumOverflow
      else
        .ok (acc + (inputs.map (fun input => ((store input.previous_output tx_idx).map
          TransactionOutput.value).getD 0)).sum) := by
  induction inputs generalizing acc with
  | nil =>
    rw [sumIncoming, List.map_nil, List.sum_nil, if_neg (by omega)]
    rfl
  | cons input rest ih =>
    rw [sumIncoming, List.map_cons, List.sum_cons]
    by_cases hv : acc + ((store input.previous_output tx_idx).map
        TransactionOutput.value).getD 0 ≥ 2 ^ 64
    · rw [if_pos hv, if_pos (by omega)]
    · rw [if_neg hv, ih _ (by omega)]
      have harr : acc + (((store input.previous_output tx_idx).map
            TransactionOutput.value).getD 0 +
          (rest.map (fun input => ((store input.previous_output tx_idx).map
            TransactionOutput.value).getD 0)).sum) =
          acc + ((store input.previous_output tx_idx).map
            TransactionOutput.value).getD 0 +
          (rest.map (fun input => ((store input.previous_output tx_idx).map
            TransactionOutput.value).getD 0)).sum := by omega
      rw [harr]

theorem coinbaseClaimFees_spec (store : OutPoint → Nat → Option TransactionOutput)
    (txs : List (Nat × IndexedTransaction)) (fees : Nat) (hf : fees < 2 ^ 64) :
    coinbaseClaimFees store txs fees = coinbaseClaimSpecLoop store txs fees := by
  induction txs generalizing fees with
  | nil => rfl
  | cons itx rest ih =>
    obtain ⟨tx_idx, tx⟩ := itx
    have hs := sumIncoming_spec store tx_idx tx.raw.inputs 0 (by norm_num)
    simp only [Nat.zero_add] at hs
    rw [coinbaseClaimFees, coinbaseClaimSpecLoop]
    split <;> rename_i heq
    · rw [heq] at hs
      by_cases h1 : (tx.raw.inputs.map (fun input =>
          ((store input.previous_output tx_idx).map
            TransactionOutput.value).getD 0)).sum ≥ 2 ^ 64
      · rw [if_pos h1] at hs
        rw [if_pos h1]
        injection hs with hs
        rw [hs]
      · rw [if_neg h1] at hs
        cases hs
    · rw [heq] at hs
      by_cases h1 : (tx.raw.inputs.map (fun input =>
          ((store input.previous_output tx_idx).map
            TransactionOutput.value).getD 0)).sum ≥ 2 ^ 64
      · rw [if_pos h1] at hs
        cases hs
      · rw [if_neg h1] at hs
        injection hs with hs
        subst hs
        rw [if_neg h1]
        by_cases h2 : (tx.raw.inputs.map (fun input =>
            ((store input.previous_output tx_idx).map
              TransactionOutput.value).getD 0)).sum < tx.raw.total_spends
        · rw [if_pos h2, if_pos h2]
        · rw [if_neg h2, if_neg h2]
          by_cases h3 : fees + ((tx.raw.inputs.map (fun input =>
              ((store input.previous_output tx_idx).map
                TransactionOutput.value).getD 0)).sum - tx.raw.total_spends) ≥ 2 ^ 64
          · rw [if_pos h3, if_pos h3]
          · rw [if_neg h3, if_neg h3, ih _ (by omega)]

/-- C2.  The coinbase-claim check of the source coincides, for every
candidate block, external store and height, with the computation the claim
describes: per non-coinbase transaction the prevout sum (missing prevouts
contributing 0, u64 overflow checked), the spend subtraction (underflow
checked), the fee accumulation (overflow checked); then the reward
`fees + block_reward(height)` (overflow checked) and the final
coinbase-claim comparison with `CoinbaseOverspend` carrying the reward as
`expected_max` and the claim as `actual`. -/
theorem coinbase_claim_check_spec (block : CanonBlock)
    (store : OutPoint → Nat → Option TransactionOutput) (height : Nat) :
    (BlockCoinbaseClaim.new block store height).check =
      coinbaseClaimSpec store block height := by
  simp only [BlockCoinbaseClaim.check, BlockCoinbaseClaim.new, coinbaseClaimSpec]
  rw [coinbaseClaimFees_spec _ _ 0 (by norm_num)]

theorem sigopsCountAux_replicate_checkmultisig (n : Nat) :
    ∀ fuel, n ≤ fuel →
      sigopsCountAux fuel (List.replicate n 174) = 20 * n := by
  induction n with
  | zero =>
    intro fuel _
    cases fuel with
    | zero => rfl
    | succ f => rfl
  | succ m ih =>
    intro fuel hf
    obtain ⟨f, rfl⟩ : ∃ f, fuel = f + 1 := ⟨fuel - 1, by omega⟩
    rw [List.replicate_succ, sigopsCountAux]
    norm_num
    rw [ih f (by omega)]
    omega

/-- C1 (amended).  `BlockAcceptor::check` runs the six sub-checks in the
source's order — finality, sigops, serialized size, coinbase claim,
coinbase script, witness — short-circuiting at the first failure, so the
error returned is that of the earliest failing sub-check in that order. -/
theorem acceptor_check_order (dhash256 : List Nat → List Nat)
    (a : BlockAcceptor) :
    a.check dhash256 = firstFailure [a.finality.check, a.sigops.check,
      a.serialized_size.check, a.coinbase_claim.check,
      a.coinbase_script.check, a.witness.check dhash256] := by
  rw [BlockAcceptor.check]
  cases a.finality.check with
  | error e => rfl
  | ok v =>
    cases a.sigops.check with
    | error e => rfl
    | ok v =>
      cases a.serialized_size.check with
      | error e => rfl
      | ok v =>
        cases a.coinbase_claim.check with
        | error e => rfl
        | ok v =>
          cases a.coinbase_script.check with
          | error e => rfl
          | ok v =>
            cases a.witness.check dhash256 with
            | error e => rfl
            | ok v => rfl

/-- C1 counterexample.  A candidate block whose base size exceeds
`max_block_size` (sub-check b fails with `Size`) and whose coinbase output
script carries 1001 CHECKMULTISIG opcodes (sub-check c fails with
`MaximumSigops`), while finality (a) passes: the claim's order a, b, c
predicts the `Size` error, but `check` returns `MaximumSigops`, because the
source runs sigops before the serialized-size check. -/
theorem acceptor_check_order_counterexample :
    (BlockAcceptor.new (fun _ _ => none)
        ⟨1000000, 4000000, 4, 20000, 80000, 1000000000, 1000000000⟩
        ⟨⟨0, ⟨0, 0⟩⟩,
          [⟨0, ⟨[⟨⟨0, 4294967295⟩, [], 4294967295, []⟩],
            [⟨0, List.replicate 1001 174⟩], 0⟩⟩],
          1000001, 1000001, []⟩
        1 ⟨false, false⟩ (fun _ => none)).finality.check = .ok () ∧
    (BlockAcceptor.new (fun _ _ => none)
        ⟨1000000, 4000000, 4, 20000, 80000, 1000000000, 1000000000⟩
        ⟨⟨0, ⟨0, 0⟩⟩,
          [⟨0, ⟨[⟨⟨0, 4294967295⟩, [], 4294967295, []⟩],
            [⟨0, List.replicate 1001 174⟩], 0⟩⟩],
          1000001, 1000001, []⟩
        1 ⟨false, false⟩ (fun _ => none)).serialized_size.check =
      .error (.Size 1000001) ∧
    (BlockAcceptor.new (fun _ _ => none)
        ⟨1000000, 4000000, 4, 20000, 80000, 1000000000, 1000000000⟩
        ⟨⟨0, ⟨0, 0⟩⟩,
          [⟨0, ⟨[⟨⟨0, 4294967295⟩, [], 4294967295, []⟩],
            [⟨0, List.replicate 1001 174⟩], 0⟩⟩],
          1000001, 1000001, []⟩
        1 ⟨false, false⟩ (fun _ => none)).sigops.check = .error .MaximumSigops ∧
    (BlockAcceptor.new (fun _ _ => none)
        ⟨1000000, 4000000, 4, 20000, 80000, 1000000000, 1000000000⟩
        ⟨⟨0, ⟨0, 0⟩⟩,
          [⟨0, ⟨[⟨⟨0, 4294967295⟩, [], 4294967295, []⟩],
            [⟨0, List.replicate 1001 174⟩], 0⟩⟩],
          1000001, 1000001, []⟩
        1 ⟨false, false⟩ (fun _ => none)).check (fun _ => []) =
      .error .MaximumSigops ∧
    (BlockAcceptor.new (fun _ _ => none)
        ⟨1000000, 4000000, 4, 20000, 80000, 1000000000, 1000000000⟩
        ⟨⟨0, ⟨0, 0⟩⟩,
          [⟨0, ⟨[⟨⟨0, 4294967295⟩, [], 4294967295, []⟩],
            [⟨0, List.replicate 1001 174⟩], 0⟩⟩],
          1000001, 1000001, []⟩
        1 ⟨false, false⟩ (fun _ => none)).check (fun _ => []) ≠
      .error (.Size 1000001) := by
  have hsig : sigopsCount (List.replicate 1001 174) = 20020 := by
    rw [sigopsCount, List.length_replicate,
      sigopsCountAux_replicate_checkmultisig 1001 1001 (le_refl 1001)]
  have hfin : (BlockAcceptor.new (fun _ _ => none)
      ⟨1000000, 4000000, 4, 20000, 80000, 1000000000, 1000000000⟩
      ⟨⟨0, ⟨0, 0⟩⟩,
        [⟨0, ⟨[⟨⟨0, 4294967295⟩, [], 4294967295, []⟩],
          [⟨0, List.replicate 1001 174⟩], 0⟩⟩],
        1000001, 1000001, []⟩
      1 ⟨false, false⟩ (fun _ => none)).finality.check = .ok () := rfl
  have hsize : (BlockAcceptor.new (fun _ _ => none)
      ⟨1000000, 4000000, 4, 20000, 80000, 1000000000, 1000000000⟩
      ⟨⟨0, ⟨0, 0⟩⟩,
        [⟨0, ⟨[⟨⟨0, 4294967295⟩, [], 4294967295, []⟩],
          [⟨0, List.replicate 1001 174⟩], 0⟩⟩],
        1000001, 1000001, []⟩
      1 ⟨false, false⟩ (fun _ => none)).serialized_size.check =
        .error (.Size 1000001) := rfl
  have hsigops : (BlockAcceptor.new (fun _ _ => none)
      ⟨1000000, 4000000, 4, 20000, 80000, 1000000000, 1000000000⟩
      ⟨⟨0, ⟨0, 0⟩⟩,
        [⟨0, ⟨[⟨⟨0, 4294967295⟩, [], 4294967295, []⟩],
          [⟨0, List.replicate 1001 174⟩], 0⟩⟩],
        1000001, 1000001, []⟩
      1 ⟨false, false⟩ (fun _ => none)).sigops.check = .error .MaximumSigops := by
    rw [BlockSigops.check]
    simp only [BlockAcceptor.new, BlockSigops.new, List.foldl_cons, List.foldl_nil,
      transaction_sigops, transaction_sigops_cost]
    rw [show Transaction.is_coinbase
        ⟨[⟨⟨0, 4294967295⟩, [], 4294967295, []⟩],
          [⟨0, List.replicate 1001 174⟩], 0⟩ = true from rfl]
    simp only [List.map_cons, List.map_nil, List.sum_cons, List.sum_nil, if_true]
    rw [hsig]
    norm_num
  have hcheck : (BlockAcceptor.new (fun _ _ => none)
      ⟨1000000, 4000000, 4, 20000, 80000, 1000000000, 1000000000⟩
      ⟨⟨0, ⟨0, 0⟩⟩,
        [⟨0, ⟨[⟨⟨0, 4294967295⟩, [], 4294967295, []⟩],
          [⟨0, List.replicate 1001 174⟩], 0⟩⟩],
        1000001, 1000001, []⟩
      1 ⟨false, false⟩ (fun _ => none)).check (fun _ => []) =
        .error .MaximumSigops := by
    rw [BlockAcceptor.check, hfin, hsigops]
  refine ⟨hfin, hsize, hsigops, hcheck, ?_⟩
  rw [hcheck]
  intro hc
  injection hc with hc
  cases hc

end Consensus

namespace OrphanPool

theorem alookup_eq_none {α : Type} (l : List (Nat × α)) (k : Nat) :
    alookup l k = none ↔ k ∉ l.map Prod.fst := by
  induction l with
  | nil => simp [alookup]
  | cons kv rest ih =>
    rw [alookup, List.map_cons]
    by_cases hk : kv.1 = k
    · simp [hk]
    · simp only [if_neg hk, ih, List.mem_cons]
      constructor
      · intro h hc
        rcases hc with hc | hc
        · exact hk hc.symm
        · exact h hc
      · intro h hc
        exact h (.inr hc)

theorem alookup_mem {α : Type} {l : List (Nat × α)} {k : Nat} {v : α}
    (h : alookup l k = some v) : (k, v) ∈ l := by
  induction l with
  | nil => simp [alookup] at h
  | cons kv rest ih =>
    rw [alookup] at h
    by_cases hk : kv.1 = k
    · rw [if_pos hk] at h
      injection h with h
      obtain ⟨k', v'⟩ := kv
      cases hk
      cases h
      exact List.mem_cons_self _ _
    · rw [if_neg hk] at h
      exact List.mem_cons_of_mem _ (ih h)

theorem alookup_of_mem_nodup {α : Type} {l : List (Nat × α)}
    {kv : Nat × α} (hnd : (l.map Prod.fst).Nodup) (h : kv ∈ l) :
    alookup l kv.1 = some kv.2 := by
  induction l with
  | nil => cases h
  | cons kv' rest ih =>
    rw [List.map_cons, List.nodup_cons] at hnd
    rcases List.mem_cons.mp h with rfl | hm
    · rw [alookup, if_pos rfl]
    · have hne : kv'.1 ≠ kv.1 := by
        intro he
        exact hnd.1 (he ▸ List.mem_map_of_mem Prod.fst hm)
      rw [alookup, if_neg hne]
      exact ih hnd.2 hm

theorem aerase_sublist {α : Type} (l : List (Nat × α)) (k : Nat) :
    List.Sublist (aerase l k) l := by
  induction l with
  | nil => simp [aerase]
  | cons kv rest ih =>
    rw [aerase]
    by_cases hk : kv.1 = k
    · rw [if_pos hk]
      exact List.sublist_cons_self kv rest
    · rw [if_neg hk]
      exact ih.cons₂ kv

theorem mem_of_mem_aerase {α : Type} {l : List (Nat × α)} {k : Nat}
    {kv : Nat × α} (h : kv ∈ aerase l k) : kv ∈ l :=
  (aerase_sublist l k).subset h

theorem nodup_keys_aerase {α : Type} {l : List (Nat × α)} (k : Nat)
    (h : (l.map Prod.fst).Nodup) : ((aerase l k).map Prod.fst).Nodup :=
  h.sublist ((aerase_sublist l k).map Prod.fst)

theorem aerase_decomp {α : Type} {l : List (Nat × α)} {k : Nat} {v : α}
    (h : alookup l k = some v) :
    ∃ l1 l2, l = l1 ++ (k, v) :: l2 ∧ (∀ e ∈ l1, e.1 ≠ k) ∧
      aerase l k = l1 ++ l2 := by
  induction l with
  | nil => simp [alookup] at h
  | cons kv rest ih =>
    rw [alookup] at h
    by_cases hk : kv.1 = k
    · rw [if_pos hk] at h
      injection h with h
      obtain ⟨k', v'⟩ := kv
      simp only at hk h
      subst hk
      subst h
      refine ⟨[], rest, rfl, ?_, ?_⟩
      · intro e he
        cases he
      · rw [aerase, if_pos rfl]
        rfl
    · rw [if_neg hk] at h
      obtain ⟨l1, l2, hsplit, hne, herase⟩ := ih h
      refine ⟨kv :: l1, l2, by rw [hsplit]; rfl, ?_, ?_⟩
      · intro e he
        rcases List.mem_cons.mp he with rfl | hm
        · exact hk
        · exact hne e hm
      · rw [aerase, if_neg hk, herase]
        rfl

theorem alookup_aerase_self {α : Type} {l : List (Nat × α)} (k : Nat)
    (hnd : (l.map Prod.fst).Nodup) : alookup (aerase l k) k = none := by
  cases halk : alookup l k with
  | none =>
    rw [alookup_eq_none] at halk ⊢
    intro hc
    exact halk (((aerase_sublist l k).map Prod.fst).subset hc)
  | some v =>
    obtain ⟨l1, l2, hsplit, hne, herase⟩ := aerase_decomp halk
    rw [herase, alookup_eq_none, List.map_append, List.mem_append]
    subst hsplit
    rw [List.map_append, List.map_cons, List.nodup_append] at hnd
    rintro (hc | hc)
    · rcases List.mem_map.mp hc with ⟨e, he, he1⟩
      exact hne e he he1
    · exact (List.nodup_cons.mp hnd.2.1).1 hc

theorem ainsert_ne_nil {α : Type} (l : List (Nat × α)) (k : Nat) (v : α) :
    ainsert l k v ≠ [] := by
  cases l with
  | nil => simp [ainsert]
  | cons kv rest =>
    rw [ainsert]
    split <;> simp

theorem mem_ainsert {α : Type} {l : List (Nat × α)} {k : Nat} {v : α}
    {kv : Nat × α} (h : kv ∈ ainsert l k v) : kv ∈ l ∨ kv = (k, v) := by
  induction l with
  | nil =>
    rw [ainsert] at h
    exact .inr (List.mem_singleton.mp h)
  | cons kv' rest ih =>
    rw [ainsert] at h
    by_cases hk : kv'.1 = k
    · rw [if_pos hk] at h
      rcases List.mem_cons.mp h with rfl | hm
      · exact .inr (by rw [← hk])
      · exact .inl (List.mem_cons_of_mem _ hm)
    · rw [if_neg hk] at h
      rcases List.mem_cons.mp h with rfl | hm
      · exact .inl (List.mem_cons_self _ _)
      · rcases ih hm with hm' | hm'
        · exact .inl (List.mem_cons_of_mem _ hm')
        · exact .inr hm'

theorem keys_sub_ainsert {α : Type} {l : List (Nat × α)} (k : Nat) (v : α)
    {x : Nat} (h : x ∈ l.map Prod.fst) : x ∈ (ainsert l k v).map Prod.fst := by
  induction l with
  | nil => cases h
  | cons kv rest ih =>
    rw [ainsert]
    rcases List.mem_cons.mp (List.map_cons Prod.fst kv rest ▸ h) with rfl | hm
    · by_cases hk : kv.1 = k
      · rw [if_pos hk, List.map_cons]
        rw [hk]
        exact List.mem_cons_self _ _
      · rw [if_neg hk, List.map_cons]
        exact List.mem_cons_self _ _
    · by_cases hk : kv.1 = k
      · rw [if_pos hk, List.map_cons]
        exact List.mem_cons_of_mem _ hm
      · rw [if_neg hk, List.map_cons]
        exact List.mem_cons_of_mem _ (ih hm)

theorem key_mem_ainsert {α : Type} (l : List (Nat × α)) (k : Nat) (v : α) :
    k ∈ (ainsert l k v).map Prod.fst := by
  induction l with
  | nil => simp [ainsert]
  | cons kv rest ih =>
    rw [ainsert]
    by_cases hk : kv.1 = k
    · rw [if_pos hk, List.map_cons, hk]
      exact List.mem_cons_self _ _
    · rw [if_neg hk, List.map_cons]
      exact List.mem_cons_of_mem _ ih

theorem keys_ainsert_sub {α : Type} {l : List (Nat × α)} {k : Nat} {v : α}
    {x : Nat} (h : x ∈ (ainsert l k v).map Prod.fst) :
    x = k ∨ x ∈ l.map Prod.fst := by
  rcases List.mem_map.mp h with ⟨kv, hkv, rfl⟩
  rcases mem_ainsert hkv with hm | rfl
  · exact .inr (List.mem_map_of_mem Prod.fst hm)
  · exact .inl rfl

theorem nodup_keys_ainsert {α : Type} {l : List (Nat × α)} (k : Nat) (v : α)
    (h : (l.map Prod.fst).Nodup) : ((ainsert l k v).map Prod.fst).Nodup := by
  induction l with
  | nil => simp [ainsert]
  | cons kv rest ih =>
    rw [List.map_cons, List.nodup_cons] at h
    rw [ainsert]
    by_cases hk : kv.1 = k
    · rw [if_pos hk, List.map_cons, List.nodup_cons]
      exact h
    · rw [if_neg hk, List.map_cons, List.nodup_cons]
      refine ⟨?_, ih h.2⟩
      intro hc
      rcases keys_ainsert_sub hc with rfl | hc'
      · exact hk rfl
      · exact h.1 hc'

theorem flatten_sublist {α : Type} {l1 l2 : List (List α)}
    (h : List.Sublist l1 l2) : List.Sublist l1.flatten l2.flatten := by
  induction h with
  | slnil => exact List.Sublist.refl _
  | cons a h ih =>
    rw [List.flatten_cons]
    exact ih.trans (List.sublist_append_right a _)
  | cons₂ a h ih =>
    rw [List.flatten_cons, List.flatten_cons]
    exact ih.append_left a

theorem childKeysList_append (l1 l2 : List (Nat × List (Nat × Block))) :
    childKeysList (l1 ++ l2) = childKeysList l1 ++ childKeysList l2 := by
  rw [childKeysList, childKeysList, childKeysList, List.map_append,
    List.flatten_append]

theorem childKeysList_cons (kv : Nat × List (Nat × Block))
    (l : List (Nat × List (Nat × Block))) :
    childKeysList (kv :: l) = kv.2.map Prod.fst ++ childKeysList l := by
  rw [childKeysList, childKeysList, List.map_cons, List.flatten_cons]

theorem childKeysList_aerase_sublist (l : List (Nat × List (Nat × Block)))
    (ph : Nat) :
    List.Sublist (childKeysList (aerase l ph)) (childKeysList l) :=
  flatten_sublist ((aerase_sublist l ph).map _)

theorem mem_childKeysList (l : List (Nat × List (Nat × Block))) (x : Nat) :
    x ∈ childKeysList l ↔
      ∃ kv ∈ l, x ∈ kv.2.map Prod.fst := by
  rw [childKeysList, List.mem_flatten]
  constructor
  · rintro ⟨a, ha, hx⟩
    rcases List.mem_map.mp ha with ⟨kv, hkv, rfl⟩
    exact ⟨kv, hkv, hx⟩
  · rintro ⟨kv, hkv, hx⟩
    exact ⟨kv.2.map Prod.fst, List.mem_map_of_mem _ hkv, hx⟩

theorem not_mem_childKeysList_aerase {l : List (Nat × List (Nat × Block))}
    {ph : Nat} {bucket : List (Nat × Block)}
    (hnd : (childKeysList l).Nodup) (h : alookup l ph = some bucket)
    {x : Nat} (hx : x ∈ bucket.map Prod.fst) :
    x ∉ childKeysList (aerase l ph) := by
  obtain ⟨l1, l2, hsplit, hne, herase⟩ := aerase_decomp h
  subst hsplit
  rw [herase, childKeysList_append]
  rw [childKeysList_append, childKeysList_cons] at hnd
  rw [List.nodup_append] at hnd
  intro hc
  rcases List.mem_append.mp hc with hc | hc
  · exact absurd (List.mem_append.mpr (.inl hx)) (hnd.2.2 hc)
  · have hnd2 := hnd.2.1
    rw [List.nodup_append] at hnd2
    exact hnd2.2.2 hx hc

theorem mem_childKeysList_aerase_of {l : List (Nat × List (Nat × Block))}
    {ph : Nat} {bucket : List (Nat × Block)}
    (h : alookup l ph = some bucket) {x : Nat}
    (hx : x ∈ childKeysList l) (hxb : x ∉ bucket.map Prod.fst) :
    x ∈ childKeysList (aerase l ph) := by
  obtain ⟨l1, l2, hsplit, hne, herase⟩ := aerase_decomp h
  subst hsplit
  rw [herase, childKeysList_append]
  rw [childKeysList_append, childKeysList_cons] at hx
  rcases List.mem_append.mp hx with hc | hc
  · exact List.mem_append.mpr (.inl hc)
  · rcases List.mem_append.mp hc with hc | hc
    · exact absurd hc hxb
    · exact List.mem_append.mpr (.inr hc)

theorem foldl_aerase_mem {α : Type} {L : List Nat} :
    ∀ {u : List (Nat × α)} {kv : Nat × α},
      kv ∈ L.foldl (fun u h => aerase u h) u → kv ∈ u := by
  induction L with
  | nil => intro u kv h; exact h
  | cons x rest ih =>
    intro u kv h
    rw [List.foldl_cons] at h
    exact mem_of_mem_aerase (ih h)

theorem foldl_aerase_nodup {α : Type} {L : List Nat} :
    ∀ {u : List (Nat × α)}, (u.map Prod.fst).Nodup →
      ((L.foldl (fun u h => aerase u h) u).map Prod.fst).Nodup := by
  induction L with
  | nil => intro u h; exact h
  | cons x rest ih =>
    intro u h
    rw [List.foldl_cons]
    exact ih (nodup_keys_aerase x h)

theorem foldl_aerase_none {α : Type} {L : List Nat} {k : Nat} :
    ∀ {u : List (Nat × α)}, alookup u k = none →
      alookup (L.foldl (fun u h => aerase u h) u) k = none := by
  induction L with
  | nil => intro u h; exact h
  | cons x rest ih =>
    intro u h
    rw [List.foldl_cons]
    refine ih ?_
    rw [alookup_eq_none] at h ⊢
    intro hc
    exact h (((aerase_sublist u x).map Prod.fst).subset hc)

theorem foldl_aerase_self {α : Type} {L : List Nat} {k : Nat} :
    ∀ {u : List (Nat × α)}, (u.map Prod.fst).Nodup → k ∈ L →
      alookup (L.foldl (fun u h => aerase u h) u) k = none := by
  induction L with
  | nil => intro u _ h; cases h
  | cons x rest ih =>
    intro u hnd hk
    rw [List.foldl_cons]
    rcases List.mem_cons.mp hk with rfl | hm
    · exact foldl_aerase_none (alookup_aerase_self k hnd)
    · exact ih (nodup_keys_aerase x hnd) hm

theorem bucket_foldl_eq (orphaned : List (Nat × Block))
    (u : List (Nat × Nat)) :
    orphaned.foldl (fun u kv => aerase u kv.1) u =
      (orphaned.map Prod.fst).foldl (fun u h => aerase u h) u := by
  rw [List.foldl_map]

theorem removeForParentLoop_nil (pool : OrphanBlocksPool) (removed : List Block) :
    removeForParentLoop [] pool removed = (removed, pool) := by
  rw [removeForParentLoop]

theorem removeForParentLoop_cons_none (ph : Nat) (rest : List Nat)
    (pool : OrphanBlocksPool) (removed : List Block)
    (h : alookup pool.orphaned_blocks ph = none) :
    removeForParentLoop (ph :: rest) pool removed =
      removeForParentLoop rest pool removed := by
  rw [removeForParentLoop, h]

theorem removeForParentLoop_cons_some (ph : Nat) (rest : List Nat)
    (pool : OrphanBlocksPool) (removed : List Block)
    (orphaned : List (Nat × Block))
    (h : alookup pool.orphaned_blocks ph = some orphaned) :
    removeForParentLoop (ph :: rest) pool removed =
      removeForParentLoop (rest ++ orphaned.map Prod.fst)
        ⟨aerase pool.orphaned_blocks ph,
          orphaned.foldl (fun u kv => aerase u kv.1) pool.unknown_blocks⟩
        (removed ++ orphaned.map Prod.snd) := by
  rw [removeForParentLoop, h]

theorem BFSOrder_nil (root : Nat) : BFSOrder root [] := by
  intro i b h
  simp at h

theorem BFSOrder_append {root : Nat} {removed newblocks : List Block}
    (hrem : BFSOrder root removed)
    (hnew : ∀ b ∈ newblocks, b.prev = root ∨ b.prev ∈ removed.map Block.hash) :
    BFSOrder root (removed ++ newblocks) := by
  intro i b hib
  by_cases hi : i < removed.length
  · have hbi : removed[i]? = some b := by
      rwa [List.getElem?_append_left hi] at hib
    rcases hrem i b hbi with h | h
    · exact .inl h
    · right
      rw [List.take_append_of_le_length (by omega)]
      exact h
  · push_neg at hi
    have hb : b ∈ newblocks := by
      rw [List.getElem?_append_right hi] at hib
      exact List.getElem?_mem hib
    rcases hnew b hb with h | h
    · exact .inl h
    · right
      rw [show i = removed.length + (i - removed.length) from by omega,
        List.take_append, List.map_append]
      exact List.mem_append.mpr (.inl h)

theorem removeForParentLoop_master :
    ∀ (queue : List Nat) (pool : OrphanBlocksPool) (removed : List Block)
      (root : Nat),
      (∀ kv ∈ pool.orphaned_blocks, ∀ e ∈ kv.2,
        e.2.prev = kv.1 ∧ e.2.hash = e.1) →
      (childKeysList pool.orphaned_blocks).Nodup →
      (pool.unknown_blocks.map Prod.fst).Nodup →
      (∀ q ∈ queue, q = root ∨ q ∈ removed.map Block.hash) →
      BFSOrder root removed →
      (∀ b ∈ removed, b.hash ∉ childKeysList pool.orphaned_blocks ∧
        alookup pool.unknown_blocks b.hash = none) →
      BFSOrder root (removeForParentLoop queue pool removed).1 ∧
      (∀ b ∈ (removeForParentLoop queue pool removed).1,
        b.hash ∉
          childKeysList (removeForParentLoop queue pool removed).2.orphaned_blocks ∧
        alookup (removeForParentLoop queue pool removed).2.unknown_blocks
          b.hash = none) := by
  intro queue pool removed
  induction queue, pool, removed using removeForParentLoop.induct with
  | case1 pool removed =>
    intro root hWK hND hNDu hqueue hrem hgone
    rw [removeForParentLoop_nil]
    exact ⟨hrem, hgone⟩
  | case2 pool removed ph rest h ih =>
    intro root hWK hND hNDu hqueue hrem hgone
    rw [removeForParentLoop_cons_none ph rest pool removed h]
    exact ih root hWK hND hNDu
      (fun q hq => hqueue q (List.mem_cons_of_mem _ hq)) hrem hgone
  | case3 pool removed ph rest orphaned h pool2 ih =>
    intro root hWK hND hNDu hqueue hrem hgone
    rw [removeForParentLoop_cons_some ph rest pool removed orphaned h]
    have hbmem : (ph, orphaned) ∈ pool.orphaned_blocks := alookup_mem h
    have hkeys : ∀ e ∈ orphaned, e.2.prev = ph ∧ e.2.hash = e.1 := hWK _ hbmem
    have hph := hqueue ph (List.mem_cons_self _ _)
    refine ih root ?_ ?_ ?_ ?_ ?_ ?_
    · exact fun kv hkv => hWK kv (mem_of_mem_aerase hkv)
    · exact hND.sublist (childKeysList_aerase_sublist _ _)
    · show ((orphaned.foldl (fun u kv => aerase u kv.1)
        pool.unknown_blocks).map Prod.fst).Nodup
      rw [bucket_foldl_eq]
      exact foldl_aerase_nodup hNDu
    · intro q hq
      rcases List.mem_append.mp hq with hq | hq
      · rcases hqueue q (List.mem_cons_of_mem _ hq) with h' | h'
        · exact .inl h'
        · exact .inr (by rw [List.map_append]; exact List.mem_append.mpr (.inl h'))
      · rcases List.mem_map.mp hq with ⟨e, he, rfl⟩
        right
        rw [List.map_append]
        refine List.mem_append.mpr (.inr ?_)
        rw [List.map_map]
        rw [← (hkeys e he).2]
        exact List.mem_map_of_mem _ he
    · refine BFSOrder_append hrem ?_
      intro b hb
      rcases List.mem_map.mp hb with ⟨e, he, rfl⟩
      rw [(hkeys e he).1]
      exact hph
    · intro b hb
      rcases List.mem_append.mp hb with hb | hb
      · refine ⟨fun hc => (hgone b hb).1
          ((childKeysList_aerase_sublist _ _).subset hc), ?_⟩
        show alookup (orphaned.foldl (fun u kv => aerase u kv.1)
          pool.unknown_blocks) b.hash = none
        rw [bucket_foldl_eq]
        exact foldl_aerase_none (hgone b hb).2
      · rcases List.mem_map.mp hb with ⟨e, he, rfl⟩
        have hinb : e.2.hash ∈ orphaned.map Prod.fst := by
          rw [(hkeys e he).2]
          exact List.mem_map_of_mem _ he
        refine ⟨not_mem_childKeysList_aerase hND h hinb, ?_⟩
        show alookup (orphaned.foldl (fun u kv => aerase u kv.1)
          pool.unknown_blocks) e.2.hash = none
        rw [bucket_foldl_eq]
        exact foldl_aerase_self hNDu hinb

/-- C7.  `remove_blocks_for_parent` returns blocks in breadth-first order —
every returned block's parent is the given hash or the hash of an earlier
returned block — and every returned block is gone from the resulting
pool's buckets and from `unknown_blocks`. -/
theorem remove_blocks_for_parent_bfs (pool : OrphanBlocksPool) (hash : Nat)
    (hWK : WellKeyed pool) :
    BFSOrder hash (pool.remove_blocks_for_parent hash).1 ∧
    ∀ b ∈ (pool.remove_blocks_for_parent hash).1,
      b.hash ∉ childKeys (pool.remove_blocks_for_parent hash).2 ∧
      alookup (pool.remove_blocks_for_parent hash).2.unknown_blocks
        b.hash = none := by
  obtain ⟨hWK1, hWK2, hWK3⟩ := hWK
  have h := removeForParentLoop_master [hash] pool [] hash hWK1 hWK2 hWK3
    (fun q hq => .inl (List.mem_singleton.mp hq)) (BFSOrder_nil hash)
    (fun b hb => by cases hb)
  exact ⟨h.1, h.2⟩

/-- Witness for C7: a chained pool (block 1 under parent 5, block 2 under
parent 1, hash 2 also unknown) is well-keyed; the removal for parent 5
satisfies the BFS and removal properties. -/
theorem remove_blocks_for_parent_bfs_witness :
    WellKeyed ⟨[(5, [(1, ⟨1, 5⟩)]), (1, [(2, ⟨2, 1⟩)])], [(2, 7)]⟩ ∧
    BFSOrder 5 ((OrphanBlocksPool.remove_blocks_for_parent
      ⟨[(5, [(1, ⟨1, 5⟩)]), (1, [(2, ⟨2, 1⟩)])], [(2, 7)]⟩ 5).1) ∧
    ∀ b ∈ (OrphanBlocksPool.remove_blocks_for_parent
        ⟨[(5, [(1, ⟨1, 5⟩)]), (1, [(2, ⟨2, 1⟩)])], [(2, 7)]⟩ 5).1,
      b.hash ∉ childKeys (OrphanBlocksPool.remove_blocks_for_parent
        ⟨[(5, [(1, ⟨1, 5⟩)]), (1, [(2, ⟨2, 1⟩)])], [(2, 7)]⟩ 5).2 ∧
      alookup (OrphanBlocksPool.remove_blocks_for_parent
        ⟨[(5, [(1, ⟨1, 5⟩)]), (1, [(2, ⟨2, 1⟩)])], [(2, 7)]⟩ 5).2.unknown_blocks
        b.hash = none := by
  have hWK : WellKeyed ⟨[(5, [(1, ⟨1, 5⟩)]), (1, [(2, ⟨2, 1⟩)])], [(2, 7)]⟩ := by
    refine ⟨?_, ?_, ?_⟩ <;> decide
  have h := remove_blocks_for_parent_bfs
    ⟨[(5, [(1, ⟨1, 5⟩)]), (1, [(2, ⟨2, 1⟩)])], [(2, 7)]⟩ 5 hWK
  exact ⟨hWK, h.1, h.2⟩

theorem keys_aerase_of_ne {α : Type} {l : List (Nat × α)} {h x : Nat}
    (hne : x ≠ h) (hx : x ∈ l.map Prod.fst) :
    x ∈ (aerase l h).map Prod.fst := by
  induction l with
  | nil => cases hx
  | cons kv rest ih =>
    rw [List.map_cons] at hx
    rw [aerase]
    by_cases hk : kv.1 = h
    · rw [if_pos hk]
      rcases List.mem_cons.mp hx with rfl | hm
      · exact absurd hk hne
      · exact hm
    · rw [if_neg hk, List.map_cons]
      rcases List.mem_cons.mp hx with rfl | hm
      · exact List.mem_cons_self _ _
      · exact List.mem_cons_of_mem _ (ih hm)

theorem childKeys_insert (l : List (Nat × List (Nat × Block))) (b : Block) :
    (∀ x ∈ childKeysList l, x ∈ childKeysList
      (ainsert l b.prev (ainsert ((alookup l b.prev).getD []) b.hash b))) ∧
    b.hash ∈ childKeysList
      (ainsert l b.prev (ainsert ((alookup l b.prev).getD []) b.hash b)) := by
  induction l with
  | nil =>
    constructor
    · intro x hx
      rw [childKeysList] at hx
      simp at hx
    · show b.hash ∈ childKeysList (ainsert [] b.prev (ainsert [] b.hash b))
      rw [ainsert, childKeysList_cons]
      exact List.mem_append.mpr (.inl (key_mem_ainsert _ _ _))
  | cons kv rest ih =>
    by_cases hk : kv.1 = b.prev
    · have ha : ainsert (kv :: rest) b.prev
          (ainsert ((alookup (kv :: rest) b.prev).getD []) b.hash b) =
          (kv.1, ainsert kv.2 b.hash b) :: rest := by
        rw [alookup, if_pos hk]
        show ainsert (kv :: rest) b.prev (ainsert kv.2 b.hash b) = _
        obtain ⟨k', v'⟩ := kv
        rw [ainsert, if_pos hk]
      rw [ha]
      constructor
      · intro x hx
        rw [childKeysList_cons] at hx
        rw [childKeysList_cons]
        rcases List.mem_append.mp hx with hm | hm
        · exact List.mem_append.mpr (.inl (keys_sub_ainsert _ _ hm))
        · exact List.mem_append.mpr (.inr hm)
      · rw [childKeysList_cons]
        exact List.mem_append.mpr (.inl (key_mem_ainsert _ _ _))
    · have ha : ainsert (kv :: rest) b.prev
          (ainsert ((alookup (kv :: rest) b.prev).getD []) b.hash b) =
          kv :: ainsert rest b.prev
            (ainsert ((alookup rest b.prev).getD []) b.hash b) := by
        rw [alookup, if_neg hk]
        obtain ⟨k', v'⟩ := kv
        rw [ainsert, if_neg hk]
      rw [ha]
      constructor
      · intro x hx
        rw [childKeysList_cons] at hx
        rw [childKeysList_cons]
        rcases List.mem_append.mp hx with hm | hm
        · exact List.mem_append.mpr (.inl hm)
        · exact List.mem_append.mpr (.inr (ih.1 x hm))
      · rw [childKeysList_cons]
        exact List.mem_append.mpr (.inr ih.2)

/-- The strengthened pool invariant used for induction: the spec invariant
plus `unknown_blocks` being a genuine map (no duplicate keys). -/
theorem poolInv_insert_orphaned {pool : OrphanBlocksPool} (b : Block)
    (h : PoolInvariant pool) :
    PoolInvariant (pool.insert_orphaned_block b) := by
  obtain ⟨hsub, hne⟩ := h
  constructor
  · intro kv hkv
    have := (childKeys_insert pool.orphaned_blocks b).1 kv.1 (hsub kv hkv)
    exact this
  · intro kv hkv
    rcases mem_ainsert hkv with hm | rfl
    · exact hne kv hm
    · exact ainsert_ne_nil _ _ _

theorem poolInv_insert_unknown {pool : OrphanBlocksPool} (b : Block) (now : Nat)
    (h : PoolInvariant pool) :
    PoolInvariant (pool.insert_unknown_block b now) := by
  obtain ⟨hsub, hne⟩ := h
  constructor
  · intro kv hkv
    rcases mem_ainsert hkv with hm | rfl
    · exact (childKeys_insert pool.orphaned_blocks b).1 kv.1 (hsub kv hm)
    · exact (childKeys_insert pool.orphaned_blocks b).2
  · intro kv hkv
    rcases mem_ainsert hkv with hm | rfl
    · exact hne kv hm
    · exact ainsert_ne_nil _ _ _

theorem nodupU_insert_orphaned {pool : OrphanBlocksPool} (b : Block)
    (h : (pool.unknown_blocks.map Prod.fst).Nodup) :
    ((pool.insert_orphaned_block b).unknown_blocks.map Prod.fst).Nodup := h

theorem nodupU_insert_unknown {pool : OrphanBlocksPool} (b : Block) (now : Nat)
    (h : (pool.unknown_blocks.map Prod.fst).Nodup) :
    ((pool.insert_unknown_block b now).unknown_blocks.map Prod.fst).Nodup :=
  nodup_keys_ainsert _ _ h

theorem loop_inv :
    ∀ (queue : List Nat) (pool : OrphanBlocksPool) (removed : List Block),
      PoolInvariant pool → (pool.unknown_blocks.map Prod.fst).Nodup →
      PoolInvariant (removeForParentLoop queue pool removed).2 ∧
        ((removeForParentLoop queue pool removed).2.unknown_blocks.map
          Prod.fst).Nodup := by
  intro queue pool removed
  induction queue, pool, removed using removeForParentLoop.induct with
  | case1 pool removed =>
    intro hInv hNDu
    rw [removeForParentLoop_nil]
    exact ⟨hInv, hNDu⟩
  | case2 pool removed ph rest h ih =>
    intro hInv hNDu
    rw [removeForParentLoop_cons_none ph rest pool removed h]
    exact ih hInv hNDu
  | case3 pool removed ph rest orphaned h pool2 ih =>
    intro hInv hNDu
    rw [removeForParentLoop_cons_some ph rest pool removed orphaned h]
    have hNDu2 : (((orphaned.foldl (fun u kv => aerase u kv.1)
        pool.unknown_blocks)).map Prod.fst).Nodup := by
      rw [bucket_foldl_eq]
      exact foldl_aerase_nodup hNDu
    refine ih ⟨?_, ?_⟩ hNDu2
    · intro kv hkv
      show kv.1 ∈ childKeysList (aerase pool.orphaned_blocks ph)
      have hmem : kv ∈ pool.unknown_blocks := by
        have h2 : kv ∈ List.foldl (fun u kv => aerase u kv.1)
            pool.unknown_blocks orphaned := hkv
        rw [bucket_foldl_eq] at h2
        exact foldl_aerase_mem h2
      have hck : kv.1 ∈ childKeysList pool.orphaned_blocks := hInv.1 kv hmem
      have hnb : kv.1 ∉ orphaned.map Prod.fst := by
        intro hc
        have hnone : alookup (orphaned.foldl (fun u kv => aerase u kv.1)
            pool.unknown_blocks) kv.1 = none := by
          rw [bucket_foldl_eq]
          exact foldl_aerase_self hNDu hc
        have hsome := alookup_of_mem_nodup hNDu2 hkv
        rw [hnone] at hsome
        cases hsome
      exact mem_childKeysList_aerase_of h hck hnb
    · intro kv hkv
      exact hInv.2 kv (mem_of_mem_aerase hkv)

theorem removeHashesFromBucket_mem :
    ∀ (hashes : List Nat) (bucket : List (Nat × Block)) (acc : List Nat)
      {kv : Nat × Block},
      kv ∈ (removeHashesFromBucket bucket hashes acc).1 → kv ∈ bucket := by
  intro hashes
  induction hashes with
  | nil => intro bucket acc kv h; exact h
  | cons x rest ih =>
    intro bucket acc kv h
    rw [removeHashesFromBucket] at h
    by_cases hx : (alookup bucket x).isSome
    · rw [if_pos hx] at h
      exact mem_of_mem_aerase (ih _ _ h)
    · rw [if_neg hx] at h
      exact ih _ _ h

theorem removeHashesFromBucket_acc :
    ∀ (hashes : List Nat) (bucket : List (Nat × Block)) (acc : List Nat)
      {x : Nat}, x ∈ acc → x ∈ (removeHashesFromBucket bucket hashes acc).2 := by
  intro hashes
  induction hashes with
  | nil => intro bucket acc x h; exact h
  | cons y rest ih =>
    intro bucket acc x h
    rw [removeHashesFromBucket]
    by_cases hy : (alookup bucket y).isSome
    · rw [if_pos hy]
      exact ih _ _ (List.mem_append.mpr (.inl h))
    · rw [if_neg hy]
      exact ih _ _ h

theorem removeHashesFromBucket_keys :
    ∀ (hashes : List Nat) (bucket : List (Nat × Block)) (acc : List Nat)
      {x : Nat}, x ∈ bucket.map Prod.fst →
      x ∉ (removeHashesFromBucket bucket hashes acc).2 →
      x ∈ (removeHashesFromBucket bucket hashes acc).1.map Prod.fst := by
  intro hashes
  induction hashes with
  | nil => intro bucket acc x hx _; exact hx
  | cons y rest ih =>
    intro bucket acc x hx hnx
    rw [removeHashesFromBucket] at hnx ⊢
    by_cases hy : (alookup bucket y).isSome
    · rw [if_pos hy] at hnx ⊢
      by_cases hxy : x = y
      · subst hxy
        exact absurd (removeHashesFromBucket_acc rest _ _
          (List.mem_append.mpr (.inr (List.mem_singleton.mpr rfl)))) hnx
      · exact ih _ _ (keys_aerase_of_ne hxy hx) hnx
    · rw [if_neg hy] at hnx ⊢
      exact ih _ _ hx hnx

theorem retainBuckets_nonempty {hashes : List Nat} :
    ∀ {l : List (Nat × List (Nat × Block))}
      {kv : Nat × List (Nat × Block)},
      kv ∈ (retainBuckets hashes l).1 → kv.2 ≠ [] := by
  intro l
  induction l with
  | nil => intro kv h; cases h
  | cons kB rest ih =>
    intro kv h
    obtain ⟨k, B⟩ := kB
    rw [retainBuckets] at h
    by_cases hbr : (removeHashesFromBucket B hashes []).1 = []
    · rw [if_pos hbr] at h
      exact ih h
    · rw [if_neg hbr] at h
      rcases List.mem_cons.mp h with rfl | hm
      · exact hbr
      · exact ih hm

theorem retainBuckets_entry {hashes : List Nat} :
    ∀ {l : List (Nat × List (Nat × Block))}
      {kv : Nat × List (Nat × Block)},
      kv ∈ (retainBuckets hashes l).1 →
      ∃ kB ∈ l, kv.1 = kB.1 ∧ ∀ e ∈ kv.2, e ∈ kB.2 := by
  intro l
  induction l with
  | nil => intro kv h; cases h
  | cons kB rest ih =>
    intro kv h
    obtain ⟨k, B⟩ := kB
    rw [retainBuckets] at h
    by_cases hbr : (removeHashesFromBucket B hashes []).1 = []
    · rw [if_pos hbr] at h
      obtain ⟨kB', hm, he⟩ := ih h
      exact ⟨kB', List.mem_cons_of_mem _ hm, he⟩
    · rw [if_neg hbr] at h
      rcases List.mem_cons.mp h with rfl | hm
      · exact ⟨(k, B), List.mem_cons_self _ _, rfl,
          fun e he => removeHashesFromBucket_mem hashes _ _ he⟩
      · obtain ⟨kB', hm', he⟩ := ih hm
        exact ⟨kB', List.mem_cons_of_mem _ hm', he⟩

theorem retainBuckets_childKeys {hashes : List Nat} :
    ∀ {l : List (Nat × List (Nat × Block))} {x : Nat},
      x ∈ childKeysList l → x ∉ (retainBuckets hashes l).2 →
      x ∈ childKeysList (retainBuckets hashes l).1 := by
  intro l
  induction l with
  | nil => intro x hx _; exact hx
  | cons kB rest ih =>
    intro x hx hnx
    obtain ⟨k, B⟩ := kB
    rw [childKeysList_cons] at hx
    rw [retainBuckets] at hnx ⊢
    have hnx1 : x ∉ (removeHashesFromBucket B hashes []).2 := by
      intro hc
      exact hnx (List.mem_append.mpr (.inl hc))
    have hnx2 : x ∉ (retainBuckets hashes rest).2 := by
      intro hc
      exact hnx (List.mem_append.mpr (.inr hc))
    rcases List.mem_append.mp hx with hm | hm
    · have hk := removeHashesFromBucket_keys hashes B [] hm hnx1
      have hbne : (removeHashesFromBucket B hashes []).1 ≠ [] := by
        intro hc
        rw [hc] at hk
        cases hk
      rw [if_neg hbne, childKeysList_cons]
      exact List.mem_append.mpr (.inl hk)
    · by_cases hbr : (removeHashesFromBucket B hashes []).1 = []
      · rw [if_pos hbr]
        exact ih hm hnx2
      · rw [if_neg hbr, childKeysList_cons]
        exact List.mem_append.mpr (.inr (ih hm hnx2))

theorem cascade_inv :
    ∀ (hashes : List Nat) (pool : OrphanBlocksPool) (acc : List Nat),
      PoolInvariant pool → (pool.unknown_blocks.map Prod.fst).Nodup →
      PoolInvariant (cascadeRemove hashes pool acc).2 ∧
        ((cascadeRemove hashes pool acc).2.unknown_blocks.map Prod.fst).Nodup := by
  intro hashes
  induction hashes with
  | nil =>
    intro pool acc hInv hNDu
    rw [cascadeRemove]
    exact ⟨hInv, hNDu⟩
  | cons x rest ih =>
    intro pool acc hInv hNDu
    rw [cascadeRemove]
    have hstep := loop_inv [x] pool [] hInv hNDu
    exact ih _ _ hstep.1 hstep.2

theorem remove_blocks_inv (pool : OrphanBlocksPool) (hashes : List Nat)
    (hInv : PoolInvariant pool)
    (hNDu : (pool.unknown_blocks.map Prod.fst).Nodup) :
    PoolInvariant (pool.remove_blocks hashes).2 ∧
      ((pool.remove_blocks hashes).2.unknown_blocks.map Prod.fst).Nodup := by
  rw [OrphanBlocksPool.remove_blocks]
  have hNDu1 : (((retainBuckets hashes pool.orphaned_blocks).2.foldl
      (fun u h => aerase u h) pool.unknown_blocks).map Prod.fst).Nodup :=
    foldl_aerase_nodup hNDu
  have hInv1 : PoolInvariant
      ⟨(retainBuckets hashes pool.orphaned_blocks).1,
        (retainBuckets hashes pool.orphaned_blocks).2.foldl
          (fun u h => aerase u h) pool.unknown_blocks⟩ := by
    constructor
    · intro kv hkv
      have hmem : kv ∈ pool.unknown_blocks := foldl_aerase_mem hkv
      have hck : kv.1 ∈ childKeysList pool.orphaned_blocks := hInv.1 kv hmem
      have hnr : kv.1 ∉ (retainBuckets hashes pool.orphaned_blocks).2 := by
        intro hc
        have hnone := foldl_aerase_self (L := (retainBuckets hashes
          pool.orphaned_blocks).2) hNDu hc
        have hsome := alookup_of_mem_nodup hNDu1 hkv
        rw [hnone] at hsome
        cases hsome
      exact retainBuckets_childKeys hck hnr
    · intro kv hkv
      exact retainBuckets_nonempty hkv
  exact cascade_inv hashes _ _ hInv1 hNDu1

theorem remove_known_inv (pool : OrphanBlocksPool)
    (hInv : PoolInvariant pool)
    (hNDu : (pool.unknown_blocks.map Prod.fst).Nodup) :
    PoolInvariant pool.remove_known_blocks.2 ∧
      (pool.remove_known_blocks.2.unknown_blocks.map Prod.fst).Nodup := by
  rw [OrphanBlocksPool.remove_known_blocks]
  exact remove_blocks_inv pool _ hInv hNDu

/-- C8.  From the empty pool, any sequence of pool operations preserves
the spec invariant: every hash in `unknown_blocks` is a child key in some
bucket of `orphaned_blocks`, and no bucket is empty. -/
theorem pool_invariant_ops (ops : List Op) :
    PoolInvariant (ops.foldl applyOp OrphanBlocksPool.new) := by
  suffices h : ∀ (pool : OrphanBlocksPool), PoolInvariant pool →
      (pool.unknown_blocks.map Prod.fst).Nodup →
      PoolInvariant (ops.foldl applyOp pool) ∧
        ((ops.foldl applyOp pool).unknown_blocks.map Prod.fst).Nodup by
    refine (h OrphanBlocksPool.new ⟨?_, ?_⟩ ?_).1
    · intro kv hkv; cases hkv
    · intro kv hkv; cases hkv
    · exact List.nodup_nil
  induction ops with
  | nil => intro pool hInv hNDu; exact ⟨hInv, hNDu⟩
  | cons op rest ih =>
    intro pool hInv hNDu
    rw [List.foldl_cons]
    cases op with
    | insertOrphaned b =>
      exact ih _ (poolInv_insert_orphaned b hInv) (nodupU_insert_orphaned b hNDu)
    | insertUnknown b now =>
      exact ih _ (poolInv_insert_unknown b now hInv)
        (nodupU_insert_unknown b now hNDu)
    | removeKnown =>
      have h := remove_known_inv pool hInv hNDu
      exact ih _ h.1 h.2
    | removeForParent h =>
      have hstep := loop_inv [h] pool [] hInv hNDu
      exact ih _ hstep.1 hstep.2
    | removeBlocks hashes =>
      have h := remove_blocks_inv pool hashes hInv hNDu
      exact ih _ h.1 h.2

/-- Witness for C8: a mixed operation sequence from the empty pool ends in
an invariant-satisfying state. -/
theorem pool_invariant_ops_witness :
    PoolInvariant
      ([Op.insertOrphaned ⟨1, 5⟩, Op.insertUnknown ⟨2, 1⟩ 7,
        Op.removeBlocks [1], Op.insertOrphaned ⟨3, 9⟩, Op.removeKnown,
        Op.removeForParent 9].foldl applyOp OrphanBlocksPool.new) :=
  pool_invariant_ops
    [Op.insertOrphaned ⟨1, 5⟩, Op.insertUnknown ⟨2, 1⟩ 7,
      Op.removeBlocks [1], Op.insertOrphaned ⟨3, 9⟩, Op.removeKnown,
      Op.removeForParent 9]

end OrphanPool




